import Mathlib

/-! ALPS emulator (`src/plugins/select/cray/libemulate/alps_emulate.c`)

A shallow embedding of the coordinate walker (`_get_dims`, `_incr_dims`,
`_init_hw_recs`, `_incr_hw_recs`, and `fetch_stmt`, which reports the cursor)
and of the node-range accumulator (`ns_add_node`, `ns_to_string`,
`free_nodespec`).

Conventions.
* A C `int` is an `Int`; `/` on `int` is `Int.tdiv` (truncation towards zero).
* A C `uint32_t` is a `Nat` below `2 ^ 32`; `node_id + 1` and `node_id - 1`
  are computed modulo `2 ^ 32`, as unsigned arithmetic does.
* `int coord[3]`, `int max_dim[3]` are lists of `Int`, read with `getD` and
  written with `set`.
* The linked list `struct nodespec *head` is the list of its nodes in link
  order; `NULL` is `[]`.
* The `while (1)` loop of `_get_dims` takes a fuel argument: `none` means the
  fuel ran out before the loop returned.
-/

namespace AlpsEmulate

/-! ## Coordinate walker -/

/-- The `for (i = 0; i < dims; i++) coord[i] = 1;` loop of `_get_dims`,
started at index `i` with `n` indices left. -/
def _get_dims_ones : Nat → Nat → List Int → List Int
  | 0, _, coord => coord
  | n + 1, i, coord => _get_dims_ones n (i + 1) (coord.set i 1)

/-- One pass of the inner `for` loop of `_get_dims`, started at index `i`
with `n` indices left.  The Boolean is `true` when the `return` was taken. -/
def _get_dims_for (spur_cnt : Int) : Nat → Nat → Int → List Int → Bool × Int × List Int
  | 0, _, count, coord => (false, count, coord)
  | n + 1, i, count, coord =>
    if count ≥ spur_cnt then (true, count, coord)
    else
      let count1 := Int.tdiv count (coord.getD i 0)
      let coord1 := coord.set i (coord.getD i 0 + 1)
      let count2 := count1 * coord1.getD i 0
      _get_dims_for spur_cnt n (i + 1) count2 coord1

/-- The `while (1)` loop of `_get_dims`; each unit of fuel pays for one pass
of the inner `for` loop.  Returns the final `count` and `coord`. -/
def _get_dims_while (spur_cnt : Int) (dims : Nat) : Nat → Int → List Int → Option (Int × List Int)
  | 0, _, _ => none
  | fuel + 1, count, coord =>
    match _get_dims_for spur_cnt dims 0 count coord with
    | (true, count1, coord1) => some (count1, coord1)
    | (false, count1, coord1) => _get_dims_while spur_cnt dims fuel count1 coord1

/-- The function `_get_dims(spur_cnt, coord, dims)`: the contents of `coord`
on return. -/
def _get_dims (fuel : Nat) (spur_cnt : Int) (coord : List Int) (dims : Nat) : Option (List Int) :=
  (_get_dims_while spur_cnt dims fuel 1 (_get_dims_ones dims 0 coord)).map Prod.snd

/-- Fuel that suffices for `_get_dims` with `dims = 3`. -/
def _get_dims_fuel (spur_cnt : Int) : Nat := spur_cnt.toNat + 1

/-- The `for` loop of `_incr_dims`, started at index `i` with `n` indices left. -/
def _incr_dims_for (max_dim : List Int) : Nat → Nat → List Int → List Int
  | 0, _, coord => coord
  | n + 1, i, coord =>
    let coord1 := coord.set i (coord.getD i 0 + 1)
    if coord1.getD i 0 < max_dim.getD i 0 then coord1
    else _incr_dims_for max_dim n (i + 1) (coord1.set i 0)

/-- The function `_incr_dims(coord, max_dim, dims)`: the contents of `coord`
on return. -/
def _incr_dims (coord max_dim : List Int) (dims : Nat) : List Int :=
  _incr_dims_for max_dim dims 0 coord

/-- The file-scope variables of the walker.  `my_node_ptr` is kept as its
offset, in records, from `my_node_table`. -/
structure HwState where
  my_node_count : Int
  my_node_ptr : Int
  my_node_inx : Int
  hw_cabinet : Int
  hw_row : Int
  hw_cage : Int
  hw_slot : Int
  hw_cpu : Int
  coord : List Int
  max_dim : List Int
  deriving DecidableEq, Repr

/-- The function `_init_hw_recs()`. -/
def _init_hw_recs (fuel : Nat) (s : HwState) : Option HwState :=
  let s1 := { s with hw_cabinet := 0, hw_row := 0, hw_cage := 0, hw_slot := 0, hw_cpu := 0 }
  let s2 := { s1 with coord := ((s1.coord.set 0 0).set 1 0).set 2 0 }
  let s3 := { s2 with my_node_ptr := 0, my_node_inx := 0 }
  (_get_dims fuel (Int.tdiv s3.my_node_count 4) s3.max_dim 3).map
    fun m => { s3 with max_dim := m }

/-- The function `_incr_hw_recs()`. -/
def _incr_hw_recs (s : HwState) : HwState :=
  let s1 := { s with hw_cpu := s.hw_cpu + 1 }
  let s2 := if s1.hw_cpu > 3 then
      { s1 with hw_cpu := 0, hw_slot := s1.hw_slot + 1,
                coord := _incr_dims s1.coord s1.max_dim 3 }
    else s1
  let s3 := if s2.hw_slot > 7 then { s2 with hw_slot := 0, hw_cage := s2.hw_cage + 1 } else s2
  let s4 := if s3.hw_cage > 2 then { s3 with hw_cage := 0, hw_cabinet := s3.hw_cabinet + 1 } else s3
  let s5 := if s4.hw_cabinet > 16 then { s4 with hw_cabinet := 0, hw_row := s4.hw_row + 1 } else s4
  { s5 with my_node_ptr := s5.my_node_ptr + 1, my_node_inx := s5.my_node_inx + 1 }

/-- The state after `k` calls of `_incr_hw_recs()`. -/
def incr_hw_recs_times : Nat → HwState → HwState
  | 0, s => s
  | k + 1, s => _incr_hw_recs (incr_hw_recs_times k s)

/-- The hardware address `(hw_cpu, hw_slot, hw_cage, hw_cabinet, hw_row)`. -/
def hw_addr (s : HwState) : Int × Int × Int × Int × Int :=
  (s.hw_cpu, s.hw_slot, s.hw_cage, s.hw_cabinet, s.hw_row)

/-- Position of an address in ripple order:
`cpu + 4*slot + 32*cage + 96*cabinet + 1632*row`. -/
def hw_rank (a : Int × Int × Int × Int × Int) : Int :=
  a.1 + 4 * a.2.1 + 32 * a.2.2.1 + 96 * a.2.2.2.1 + 1632 * a.2.2.2.2

/-- The cursor invariant of the spec: cpu < 4, slot < 8, cage < 3,
cabinet < 17, and every spatial coordinate below its bound in `max_dim`. -/
def CursorInv (s : HwState) : Prop :=
  (0 ≤ s.hw_cpu ∧ s.hw_cpu < 4) ∧ (0 ≤ s.hw_slot ∧ s.hw_slot < 8) ∧
  (0 ≤ s.hw_cage ∧ s.hw_cage < 3) ∧ (0 ≤ s.hw_cabinet ∧ s.hw_cabinet < 17) ∧
  ∀ i : Nat, i < 3 → 0 ≤ s.coord.getD i 0 ∧ s.coord.getD i 0 < s.max_dim.getD i 0

/-- A prior state of the walker in which `coord` and `max_dim` are arrays of
three `int`, as declared. -/
def HwState.arrays_ok (s : HwState) : Prop :=
  s.coord.length = 3 ∧ s.max_dim.length = 3

/-! ## Node-range accumulator -/

/-- The `struct nodespec` of `basil_alps.h` without its `next` link: a closed
interval of `uint32_t` node identifiers. -/
structure nodespec where
  start : Nat
  end_ : Nat
  deriving DecidableEq, Repr

/-- The `while (my_node_spec)` loop of `ns_add_node`: `some` list when one of
the two `return 0` inside the loop was taken, `none` when the loop ran off
the end of the list. -/
def ns_add_node_scan (node_id : Nat) : List nodespec → Option (List nodespec)
  | [] => none
  | n :: rest =>
    if n.start = (node_id + 1) % 2 ^ 32 then
      some ({ n with start := node_id } :: rest)
    else if n.end_ = (node_id + 2 ^ 32 - 1) % 2 ^ 32 then
      some ({ n with start := node_id } :: rest)
    else (ns_add_node_scan node_id rest).map (n :: ·)

/-- The function `ns_add_node(&head, node_id)`: the return value and the list
`*head` afterwards. -/
def ns_add_node (head : List nodespec) (node_id : Nat) : Int × List nodespec :=
  match ns_add_node_scan node_id head with
  | some l => (0, l)
  | none => (0, { start := node_id, end_ := node_id } :: head)

/-- Insert the identifiers of `ids`, in order, with `ns_add_node`. -/
def ns_add_nodes (head : List nodespec) : List Nat → List nodespec
  | [] => head
  | id :: ids => ns_add_nodes (ns_add_node head id).2 ids

/-- The function `free_nodespec(head)` (with `_DEBUG` set, as the file defines
it): `none` is the fault of reading `head->start` through a `NULL` head;
otherwise the nodes still allocated on return. -/
def free_nodespec (head : List nodespec) : Option (List nodespec) :=
  match head with
  | [] => none
  | _ :: _ => some head

/-- The identifier `x` lies in the interval `n`. -/
def nodespec.covers (n : nodespec) (x : Nat) : Prop := n.start ≤ x ∧ x ≤ n.end_

/-- Two intervals are neither adjacent (`end + 1 == start`, either way round)
nor overlapping (no identifier lies in both). -/
def Separated (a b : nodespec) : Prop :=
  a.end_ + 1 ≠ b.start ∧ b.end_ + 1 ≠ a.start ∧ ∀ x : Nat, ¬ (a.covers x ∧ b.covers x)

/-- The identifier `x` lies in the interval `n` read on the circle of
`uint32_t` values: an interval with `end < start` runs from `start` up to
`2^32 - 1` and on from 0 to `end`. -/
def nodespec.ccovers (n : nodespec) (x : Nat) : Prop :=
  x < 4294967296 ∧
    ((n.start ≤ n.end_ ∧ n.start ≤ x ∧ x ≤ n.end_) ∨ (n.end_ < n.start ∧ (n.start ≤ x ∨ x ≤ n.end_)))

/-- No two distinct nodes of the list are adjacent or overlapping. -/
def NoAdjacentOrOverlap (l : List nodespec) : Prop := l.Pairwise Separated

/-- A state of the walker's variables left over from earlier use, for examples. -/
def sample_prior : HwState :=
  { my_node_count := 0, my_node_ptr := 7, my_node_inx := 7, hw_cabinet := 3, hw_row := 2,
    hw_cage := 1, hw_slot := 5, hw_cpu := 2, coord := [4, 5, 6], max_dim := [9, 9, 9] }

/-- Shape of what `_get_dims` can return: the extents are `(z, z, z)`,
`(z + 1, z, z)` or `(z + 1, z + 1, z)`, `count` is their product and covers
`spur`, and the extents visited just before did not cover `spur`. -/
structure GetDimsResult (spur count x y z : Int) : Prop where
  count_eq : count = x * y * z
  one_le : 1 ≤ z
  covers : spur ≤ count
  shape : (x = z ∧ y = z) ∨ (x = z + 1 ∧ y = z) ∨ (x = z + 1 ∧ y = z + 1)
  prev_cube : x = z → y = z → spur ≤ 1 ∨ (1 < z ∧ z * z * (z - 1) < spur)
  prev_one : x = z + 1 → y = z → z * z * z < spur
  prev_two : x = z + 1 → y = z + 1 → (z + 1) * z * z < spur

/-- The spatial part of the cursor invariant: both arrays hold three values
and each coordinate is within its bound. -/
def AxesInv (coord max_dim : List Int) : Prop :=
  ∃ c0 c1 c2 m0 m1 m2 : Int, coord = [c0, c1, c2] ∧ max_dim = [m0, m1, m2] ∧
    0 ≤ c0 ∧ c0 < m0 ∧ 0 ≤ c1 ∧ c1 < m1 ∧ 0 ≤ c2 ∧ c2 < m2

/-- The invariant kept by downward-only insertion: the fields are `uint32_t`
values, every interval covers (cyclically) only identifiers of `S`, and the
intervals are pairwise separated. -/
structure RangeInv (S : Nat → Prop) (l : List nodespec) : Prop where
  bound : ∀ n ∈ l, n.start < 4294967296 ∧ n.end_ < 4294967296
  sub : ∀ n ∈ l, ∀ x, n.ccovers x → S x
  sep : l.Pairwise Separated

/-- The eight `int` columns that `fetch_stmt` writes into `my_bind_col`
(`COL_CAB`, `COL_ROW`, `COL_CAGE`, `COL_SLOT`, `COL_CPU`, `COL_X`, `COL_Y`,
`COL_Z`). -/
structure BindRow where
  cab : Int
  row : Int
  cage : Int
  slot : Int
  cpu : Int
  x : Int
  y : Int
  z : Int
  deriving DecidableEq, Repr

/-- The function `fetch_stmt(stmt)`: the return value, the row written into
`my_bind_col` (none when the function returns 1 before writing), and the
walker's variables afterwards. -/
def fetch_stmt (s : HwState) : Int × Option BindRow × HwState :=
  if s.my_node_inx ≥ s.my_node_count then (1, none, s)
  else
    (0, some { cab := s.hw_cabinet, row := s.hw_row, cage := s.hw_cage, slot := s.hw_slot,
               cpu := s.hw_cpu, x := s.coord.getD 0 0, y := s.coord.getD 1 0,
               z := s.coord.getD 2 0 },
      _incr_hw_recs s)

/-- The walker's variables after `n` calls of `fetch_stmt`. -/
def fetch_stmt_times : Nat → HwState → HwState
  | 0, s => s
  | n + 1, s => (fetch_stmt (fetch_stmt_times n s)).2.2

/-- What call number `i` (counted from 0) of `fetch_stmt` returns and writes. -/
def fetch_stmt_nth (i : Nat) (s : HwState) : Int × Option BindRow :=
  ((fetch_stmt (fetch_stmt_times i s)).1, (fetch_stmt (fetch_stmt_times i s)).2.1)

/-- The function `ns_to_string(head)` (with `_DEBUG` set, as the file defines
it): `none` is the fault of reading `head->start` through a `NULL` head;
otherwise the returned pointer, which is always `NULL` (no string). -/
def ns_to_string (head : List nodespec) : Option (Option String) :=
  match head with
  | [] => none
  | _ :: _ => some none

/-- One execution of the body of the inner loop of `_get_dims`: the index,
`count` and `coord` before it, `count` after `count /= coord[i]`, and `count`
and `coord` after `count *= coord[i]`. -/
structure DimsStep where
  i : Nat
  count_before : Int
  coord_before : List Int
  quotient : Int
  count_after : Int
  coord_after : List Int
  deriving DecidableEq, Repr

/-- The inner `for` loop of `_get_dims` as `_get_dims_for`, recording every
execution of its body. -/
def _get_dims_for_trace (spur_cnt : Int) :
    Nat → Nat → Int → List Int → Bool × Int × List Int × List DimsStep
  | 0, _, count, coord => (false, count, coord, [])
  | n + 1, i, count, coord =>
    if count ≥ spur_cnt then (true, count, coord, [])
    else
      let count1 := Int.tdiv count (coord.getD i 0)
      let coord1 := coord.set i (coord.getD i 0 + 1)
      let count2 := count1 * coord1.getD i 0
      let r := _get_dims_for_trace spur_cnt n (i + 1) count2 coord1
      (r.1, r.2.1, r.2.2.1,
        { i := i, count_before := count, coord_before := coord, quotient := count1,
          count_after := count2, coord_after := coord1 } :: r.2.2.2)

/-- The `while (1)` loop of `_get_dims` as `_get_dims_while`, recording every
execution of the body of the inner loop. -/
def _get_dims_while_trace (spur_cnt : Int) (dims : Nat) :
    Nat → Int → List Int → Option (Int × List Int × List DimsStep)
  | 0, _, _ => none
  | fuel + 1, count, coord =>
    match _get_dims_for_trace spur_cnt dims 0 count coord with
    | (true, count1, coord1, tr) => some (count1, coord1, tr)
    | (false, count1, coord1, tr) =>
      (_get_dims_while_trace spur_cnt dims fuel count1 coord1).map
        fun r => (r.1, r.2.1, tr ++ r.2.2)

/-- What claim C20 says of one execution of the loop body: the divisor
`coord[i]` is at least 1 and divides `count` exactly, `count` is the product
of the extents before and after, and no value of `count` exceeds
`max(1, 2*(spur_cnt - 1))`. -/
def DimsStep.ok (spur_cnt : Int) (st : DimsStep) : Prop :=
  1 ≤ st.coord_before.getD st.i 0 ∧
  st.count_before = st.quotient * st.coord_before.getD st.i 0 ∧
  st.count_before = st.coord_before.prod ∧
  st.count_after = st.coord_after.prod ∧
  0 ≤ st.quotient ∧ st.quotient ≤ st.count_before ∧
  st.count_before ≤ max 1 (2 * (spur_cnt - 1)) ∧
  st.count_after ≤ max 1 (2 * (spur_cnt - 1))

/-- No value a loop-body execution computes leaves the range of a 32-bit
`int`: the three values of `count` and every extent. -/
def DimsStep.fits_int32 (st : DimsStep) : Prop :=
  (0 ≤ st.count_before ∧ st.count_before < 2 ^ 31) ∧
  (0 ≤ st.quotient ∧ st.quotient < 2 ^ 31) ∧
  (0 ≤ st.count_after ∧ st.count_after < 2 ^ 31) ∧
  ∀ c ∈ st.coord_after, 0 ≤ c ∧ c < 2 ^ 31

/-- Another left-over state of the walker's variables, for examples. -/
def sample_prior_other : HwState :=
  { my_node_count := 40, my_node_ptr := 40, my_node_inx := 40, hw_cabinet := 0, hw_row := 0,
    hw_cage := 1, hw_slot := 2, hw_cpu := 3, coord := [1, 1, 0], max_dim := [2, 2, 3] }

/-! ## Lemmas on `_get_dims` -/

theorem get_dims_ones_three (a b c : Int) (rest : List Int) :
    _get_dims_ones 3 0 (a :: b :: c :: rest) = 1 :: 1 :: 1 :: rest := by
  simp [_get_dims_ones]

theorem tdiv_of_eq_mul (c p a : Int) (ha : a ≠ 0) (hc : c = p * a) : Int.tdiv c a = p := by
  subst hc
  exact Int.mul_tdiv_cancel p ha

/-- One pass of the inner loop from the cube `(a, a, a)`. -/
theorem get_dims_for_cube (spur a : Int) (ha : 1 ≤ a) (rest : List Int) :
    _get_dims_for spur 3 0 (a * a * a) (a :: a :: a :: rest) =
      if spur ≤ a * a * a then (true, a * a * a, a :: a :: a :: rest)
      else if spur ≤ (a + 1) * a * a then (true, (a + 1) * a * a, (a + 1) :: a :: a :: rest)
      else if spur ≤ (a + 1) * (a + 1) * a then
        (true, (a + 1) * (a + 1) * a, (a + 1) :: (a + 1) :: a :: rest)
      else (false, (a + 1) * (a + 1) * (a + 1), (a + 1) :: (a + 1) :: (a + 1) :: rest) := by
  have ha0 : a ≠ 0 := by omega
  have e1 : Int.tdiv (a * a * a) a * (a + 1) = (a + 1) * a * a := by
    rw [tdiv_of_eq_mul (a * a * a) (a * a) a ha0 rfl]; ring
  have e2 : Int.tdiv ((a + 1) * a * a) a * (a + 1) = (a + 1) * (a + 1) * a := by
    rw [tdiv_of_eq_mul ((a + 1) * a * a) ((a + 1) * a) a ha0 rfl]; ring
  have e3 : Int.tdiv ((a + 1) * (a + 1) * a) a * (a + 1) = (a + 1) * (a + 1) * (a + 1) := by
    rw [tdiv_of_eq_mul ((a + 1) * (a + 1) * a) ((a + 1) * (a + 1)) a ha0 rfl]
  by_cases h1 : spur ≤ a * a * a
  · simp [_get_dims_for, h1]
  · by_cases h2 : spur ≤ (a + 1) * a * a
    · simp [_get_dims_for, h1, h2, e1]
    · by_cases h3 : spur ≤ (a + 1) * (a + 1) * a
      · simp [_get_dims_for, h1, h2, h3, e1, e2]
      · simp [_get_dims_for, h1, h2, h3, e1, e2, e3]

theorem le_cube (a : Int) (ha : 1 ≤ a) : a ≤ a * a * a := by
  nlinarith [mul_pos (by omega : (0 : Int) < a) (by omega : (0 : Int) < a)]

/-- The `while (1)` loop from the cube `(a, a, a)` returns when the fuel
exceeds `spur - a`. -/
theorem get_dims_while_cube (spur : Int) (rest : List Int) :
    ∀ (fuel : Nat) (a : Int), 1 ≤ a → 1 ≤ fuel → spur < a + fuel →
      (a = 1 ∨ a * a * (a - 1) < spur) →
      ∃ count x y z, _get_dims_while spur 3 fuel (a * a * a) (a :: a :: a :: rest)
          = some (count, x :: y :: z :: rest) ∧ GetDimsResult spur count x y z := by
  intro fuel
  induction fuel with
  | zero => intro a _ h; omega
  | succ n ih =>
    intro a ha _ hlt hprev
    have hpos : (0 : Int) < a := by omega
    rw [_get_dims_while, get_dims_for_cube spur a ha rest]
    by_cases h1 : spur ≤ a * a * a
    · refine ⟨a * a * a, a, a, a, by simp [h1], rfl, ha, h1, Or.inl ⟨rfl, rfl⟩, ?_, ?_, ?_⟩
      · intro _ _
        rcases hprev with h | h
        · left; subst h; simpa using h1
        · by_cases h1a : a = 1
          · left; subst h1a; simpa using h1
          · right; exact ⟨by omega, h⟩
      · intro h; omega
      · intro h; omega
    · by_cases h2 : spur ≤ (a + 1) * a * a
      · refine ⟨(a + 1) * a * a, a + 1, a, a, by simp [h1, h2], rfl, ha, h2,
          Or.inr (Or.inl ⟨rfl, rfl⟩), ?_, ?_, ?_⟩
        · intro h; omega
        · intro _ _; omega
        · intro _ h; omega
      · by_cases h3 : spur ≤ (a + 1) * (a + 1) * a
        · refine ⟨(a + 1) * (a + 1) * a, a + 1, a + 1, a, by simp [h1, h2, h3], rfl, ha, h3,
            Or.inr (Or.inr ⟨rfl, rfl⟩), ?_, ?_, ?_⟩
          · intro h; omega
          · intro _ h; omega
          · intro _ _; omega
        · have hcube := le_cube a ha
          have hn : 1 ≤ n := by
            by_contra hc
            have : n = 0 := by omega
            subst this
            simp at hlt
            omega
          have hstep := ih (a + 1) (by omega) hn (by push_cast at hlt ⊢; omega)
            (Or.inr (by
              have : (a + 1) * (a + 1) * (a + 1 - 1) = (a + 1) * (a + 1) * a := by ring
              rw [this]; omega))
          simpa [h1, h2, h3] using hstep

/-- More fuel does not change what the `while (1)` loop returns. -/
theorem get_dims_while_mono (spur : Int) (dims : Nat) (extra : Nat) :
    ∀ (fuel : Nat) (count : Int) (coord : List Int) (r : Int × List Int),
      _get_dims_while spur dims fuel count coord = some r →
      _get_dims_while spur dims (fuel + extra) count coord = some r := by
  intro fuel
  induction fuel with
  | zero => intro count coord r h; simp [_get_dims_while] at h
  | succ n ih =>
    intro count coord r h
    rw [Nat.add_right_comm, _get_dims_while]
    rw [_get_dims_while] at h
    rcases hfor : _get_dims_for spur dims 0 count coord with ⟨b, count1, coord1⟩
    rw [hfor] at h
    cases b with
    | true => simpa using h
    | false => exact ih count1 coord1 r h

/-- `_get_dims(spur, coord, 3)` returns, for every fuel from `_get_dims_fuel
spur` on, extents described by `GetDimsResult`. -/
theorem get_dims_three (spur a b c : Int) (rest : List Int) :
    ∃ x y z, (∀ extra : Nat, _get_dims (_get_dims_fuel spur + extra) spur (a :: b :: c :: rest) 3
        = some (x :: y :: z :: rest)) ∧ GetDimsResult spur (x * y * z) x y z := by
  have key : ∀ extra : Nat, ∃ count x y z,
      _get_dims_while spur 3 (_get_dims_fuel spur + extra) (1 * 1 * 1) (1 :: 1 :: 1 :: rest)
        = some (count, x :: y :: z :: rest) ∧ GetDimsResult spur count x y z := by
    intro extra
    apply get_dims_while_cube spur rest _ 1 (by omega)
    · unfold _get_dims_fuel; omega
    · unfold _get_dims_fuel; push_cast; omega
    · exact Or.inl rfl
  obtain ⟨count, x, y, z, h0, hres⟩ := key 0
  refine ⟨x, y, z, ?_, ?_⟩
  · intro extra
    have h1 := get_dims_while_mono spur 3 extra _ _ _ _ h0
    simp only [_get_dims, get_dims_ones_three]
    simp only [mul_one, Nat.add_zero] at h1
    rw [h1]; rfl
  · rw [← hres.count_eq]; exact hres

/-! ## Lemmas on the cursor -/

theorem incr_dims_three (c0 c1 c2 m0 m1 m2 : Int) :
    _incr_dims [c0, c1, c2] [m0, m1, m2] 3 =
      if c0 + 1 < m0 then [c0 + 1, c1, c2]
      else if c1 + 1 < m1 then [0, c1 + 1, c2]
      else if c2 + 1 < m2 then [0, 0, c2 + 1]
      else [0, 0, 0] := by
  by_cases h0 : c0 + 1 < m0
  · simp [_incr_dims, _incr_dims_for, h0]
  · by_cases h1 : c1 + 1 < m1
    · simp [_incr_dims, _incr_dims_for, h0, h1]
    · by_cases h2 : c2 + 1 < m2
      · simp [_incr_dims, _incr_dims_for, h0, h1, h2]
      · simp [_incr_dims, _incr_dims_for, h0, h1, h2]

/-- One call of `_incr_hw_recs` moves the address from position `k` to
position `k + 1` of the ripple order. -/
theorem incr_hw_recs_addr (s : HwState) (k : Int)
    (h : hw_addr s = (k % 4, k / 4 % 8, k / 32 % 3, k / 96 % 17, k / 1632)) :
    hw_addr (_incr_hw_recs s)
      = ((k + 1) % 4, (k + 1) / 4 % 8, (k + 1) / 32 % 3, (k + 1) / 96 % 17, (k + 1) / 1632) := by
  rcases s with ⟨cnt, ptr, inx, cab, row, cage, slot, cpu, coord, md⟩
  simp only [hw_addr, Prod.mk.injEq] at h
  obtain ⟨h1, h2, h3, h4, h5⟩ := h
  subst h1 h2 h3 h4 h5
  simp only [hw_addr, _incr_hw_recs, Prod.mk.injEq]
  by_cases c1 : k % 4 + 1 > 3
  · by_cases c2 : k / 4 % 8 + 1 > 7
    · by_cases c3 : k / 32 % 3 + 1 > 2
      · by_cases c4 : k / 96 % 17 + 1 > 16
        · simp only [c1, c2, c3, c4, if_true]; omega
        · simp only [c1, c2, c3, c4, if_true, if_false]; omega
      · have c4 : ¬ k / 96 % 17 > 16 := by omega
        simp only [c1, c2, c3, c4, if_true, if_false]; omega
    · have c3 : ¬ k / 32 % 3 > 2 := by omega
      have c4 : ¬ k / 96 % 17 > 16 := by omega
      simp only [c1, c2, c3, c4, if_true, if_false]; omega
  · have c2 : ¬ k / 4 % 8 > 7 := by omega
    have c3 : ¬ k / 32 % 3 > 2 := by omega
    have c4 : ¬ k / 96 % 17 > 16 := by omega
    simp only [c1, c2, c3, c4, if_true, if_false]; omega

/-- After `k` calls of `_incr_hw_recs` from a state whose five counters are
zero, the address is the `k`-th of the ripple order. -/
theorem incr_hw_recs_times_addr (s : HwState) (h0 : hw_addr s = (0, 0, 0, 0, 0)) (k : Nat) :
    hw_addr (incr_hw_recs_times k s)
      = ((k : Int) % 4, (k : Int) / 4 % 8, (k : Int) / 32 % 3, (k : Int) / 96 % 17,
          (k : Int) / 1632) := by
  induction k with
  | zero => simpa [incr_hw_recs_times] using h0
  | succ n ih =>
    have := incr_hw_recs_addr (incr_hw_recs_times n s) (n : Int) ih
    simpa [incr_hw_recs_times] using this

theorem hw_rank_closed_form (k : Int) :
    hw_rank (k % 4, k / 4 % 8, k / 32 % 3, k / 96 % 17, k / 1632) = k := by
  simp only [hw_rank]
  omega

/-- The state `_init_hw_recs` leaves behind. -/
theorem init_hw_recs_spec (s : HwState) (fuel : Nat) (hcoord : s.coord.length = 3)
    (hmax : s.max_dim.length = 3)
    (hfuel : _get_dims_fuel (Int.tdiv s.my_node_count 4) ≤ fuel) :
    ∃ x y z, _init_hw_recs fuel s = some
        { my_node_count := s.my_node_count, my_node_ptr := 0, my_node_inx := 0,
          hw_cabinet := 0, hw_row := 0, hw_cage := 0, hw_slot := 0, hw_cpu := 0,
          coord := [0, 0, 0], max_dim := [x, y, z] } ∧
      GetDimsResult (Int.tdiv s.my_node_count 4) (x * y * z) x y z := by
  rcases s with ⟨cnt, ptr, inx, cab, row, cage, slot, cpu, coord, md⟩
  simp only at hcoord hmax hfuel
  match coord, hcoord, md, hmax with
  | [c0, c1, c2], _, [a, b, c], _ =>
    obtain ⟨x, y, z, hret, hres⟩ := get_dims_three (Int.tdiv cnt 4) a b c []
    refine ⟨x, y, z, ?_, hres⟩
    obtain ⟨extra, rfl⟩ := Nat.exists_eq_add_of_le hfuel
    simp [_init_hw_recs, hret extra]

theorem incr_hw_recs_max_dim (s : HwState) : (_incr_hw_recs s).max_dim = s.max_dim := by
  unfold _incr_hw_recs
  dsimp only
  split_ifs <;> rfl

theorem incr_hw_recs_coord (s : HwState) :
    (_incr_hw_recs s).coord
      = if s.hw_cpu + 1 > 3 then _incr_dims s.coord s.max_dim 3 else s.coord := by
  unfold _incr_hw_recs
  dsimp only
  split_ifs <;> rfl

theorem axesInv_incr_dims (coord max_dim : List Int) (h : AxesInv coord max_dim) :
    AxesInv (_incr_dims coord max_dim 3) max_dim := by
  obtain ⟨c0, c1, c2, m0, m1, m2, rfl, rfl, e0, f0, e1, f1, e2, f2⟩ := h
  rw [incr_dims_three]
  split_ifs with g0 g1 g2
  · exact ⟨_, _, _, _, _, _, rfl, rfl, by omega, g0, e1, f1, e2, f2⟩
  · exact ⟨_, _, _, _, _, _, rfl, rfl, le_refl 0, by omega, by omega, g1, e2, f2⟩
  · exact ⟨_, _, _, _, _, _, rfl, rfl, le_refl 0, by omega, le_refl 0, by omega, by omega, g2⟩
  · exact ⟨_, _, _, _, _, _, rfl, rfl, le_refl 0, by omega, le_refl 0, by omega, le_refl 0,
      by omega⟩

theorem axesInv_incr_hw_recs (s : HwState) (h : AxesInv s.coord s.max_dim) :
    AxesInv (_incr_hw_recs s).coord (_incr_hw_recs s).max_dim := by
  rw [incr_hw_recs_max_dim, incr_hw_recs_coord]
  split_ifs
  · exact axesInv_incr_dims _ _ h
  · exact h

theorem axesInv_times (s : HwState) (h : AxesInv s.coord s.max_dim) (k : Nat) :
    AxesInv (incr_hw_recs_times k s).coord (incr_hw_recs_times k s).max_dim := by
  induction k with
  | zero => exact h
  | succ n ih => exact axesInv_incr_hw_recs _ ih

theorem axesInv_getD (coord max_dim : List Int) (h : AxesInv coord max_dim) (i : Nat)
    (hi : i < 3) : 0 ≤ coord.getD i 0 ∧ coord.getD i 0 < max_dim.getD i 0 := by
  obtain ⟨c0, c1, c2, m0, m1, m2, rfl, rfl, e0, f0, e1, f1, e2, f2⟩ := h
  match i, hi with
  | 0, _ => exact ⟨e0, f0⟩
  | 1, _ => exact ⟨e1, f1⟩
  | 2, _ => exact ⟨e2, f2⟩

/-! ## Claims on the coordinate walker -/

/-- C1: for every node count `N > 0` and every `k < N`, `_init_hw_recs` returns
and, after `k` calls of `_incr_hw_recs`, the hardware address is
`(k mod 4, (k/4) mod 8, (k/32) mod 3, (k/96) mod 17, k/1632)`; its position
`cpu + 4*slot + 32*cage + 96*cabinet + 1632*row` in ripple order is `k`, and
the addresses of two different steps below `N` differ. -/
theorem hw_addr_ripple_order (s : HwState) (N : Int) (fuel k : Nat) (hs : s.arrays_ok)
    (_hN : 0 < N) (_hk : (k : Int) < N) (hfuel : _get_dims_fuel (Int.tdiv N 4) ≤ fuel) :
    ∃ s0, _init_hw_recs fuel { s with my_node_count := N } = some s0 ∧
      hw_addr (incr_hw_recs_times k s0)
        = ((k : Int) % 4, (k : Int) / 4 % 8, (k : Int) / 32 % 3, (k : Int) / 96 % 17,
            (k : Int) / 1632) ∧
      hw_rank (hw_addr (incr_hw_recs_times k s0)) = k ∧
      ∀ j : Nat, (j : Int) < N → j ≠ k →
        hw_addr (incr_hw_recs_times j s0) ≠ hw_addr (incr_hw_recs_times k s0) := by
  obtain ⟨x, y, z, hinit, -⟩ :=
    init_hw_recs_spec { s with my_node_count := N } fuel hs.1 hs.2 hfuel
  have key : ∀ j : Nat, hw_addr (incr_hw_recs_times j
      { my_node_count := N, my_node_ptr := 0, my_node_inx := 0, hw_cabinet := 0, hw_row := 0,
        hw_cage := 0, hw_slot := 0, hw_cpu := 0, coord := [0, 0, 0], max_dim := [x, y, z] })
      = ((j : Int) % 4, (j : Int) / 4 % 8, (j : Int) / 32 % 3, (j : Int) / 96 % 17,
          (j : Int) / 1632) := by
    intro j
    apply incr_hw_recs_times_addr
    rfl
  refine ⟨_, hinit, key k, ?_, ?_⟩
  · rw [key k]; exact hw_rank_closed_form k
  · intro j _ hjk heq
    have hr := congrArg hw_rank heq
    rw [key j, key k, hw_rank_closed_form, hw_rank_closed_form] at hr
    exact hjk (by exact_mod_cast hr)

/-- C4: for every integer `totalUnits`, `_get_dims(totalUnits, coord, 3)`
returns (for every fuel from `_get_dims_fuel totalUnits` on, whatever `coord`
held before) three extents, each at least 1, whose product is at least
`totalUnits`. -/
theorem get_dims_product_covers (totalUnits a b c : Int) :
    ∃ x y z : Int,
      (∀ extra : Nat, _get_dims (_get_dims_fuel totalUnits + extra) totalUnits [a, b, c] 3
        = some [x, y, z]) ∧
      1 ≤ x ∧ 1 ≤ y ∧ 1 ≤ z ∧ totalUnits ≤ x * y * z := by
  obtain ⟨x, y, z, hret, hres⟩ := get_dims_three totalUnits a b c []
  have h1 := hres.one_le
  have hcov := hres.covers
  refine ⟨x, y, z, hret, ?_, ?_, h1, hcov⟩
  · rcases hres.shape with ⟨hx, _⟩ | ⟨hx, _⟩ | ⟨hx, _⟩ <;> omega
  · rcases hres.shape with ⟨_, hy⟩ | ⟨_, hy⟩ | ⟨_, hy⟩ <;> omega

/-- C5: for every integer `totalUnits`, the three extents returned by
`_get_dims(totalUnits, coord, 3)` are near-cubic: the largest exceeds the
smallest by at most 1. -/
theorem get_dims_cubic_shape (totalUnits a b c : Int) :
    ∃ x y z : Int,
      (∀ extra : Nat, _get_dims (_get_dims_fuel totalUnits + extra) totalUnits [a, b, c] 3
        = some [x, y, z]) ∧
      max x (max y z) - min x (min y z) ≤ 1 := by
  obtain ⟨x, y, z, hret, hres⟩ := get_dims_three totalUnits a b c []
  refine ⟨x, y, z, hret, ?_⟩
  rcases hres.shape with ⟨hx, hy⟩ | ⟨hx, hy⟩ | ⟨hx, hy⟩ <;> subst hx hy <;>
    simp [max_def, min_def]

/-- C8: for every node count `N`, `_init_hw_recs` returns and every state
reached from it by any number `k` of `_incr_hw_recs` calls satisfies the cursor
invariant: `0 ≤ hw_cpu < 4`, `0 ≤ hw_slot < 8`, `0 ≤ hw_cage < 3`,
`0 ≤ hw_cabinet < 17` and `0 ≤ coord[i] < max_dim[i]` on the three axes. -/
theorem cursor_invariant_reachable (s : HwState) (N : Int) (fuel : Nat) (hs : s.arrays_ok)
    (hfuel : _get_dims_fuel (Int.tdiv N 4) ≤ fuel) :
    ∃ s0, _init_hw_recs fuel { s with my_node_count := N } = some s0 ∧
      ∀ k : Nat, CursorInv (incr_hw_recs_times k s0) := by
  obtain ⟨x, y, z, hinit, hres⟩ :=
    init_hw_recs_spec { s with my_node_count := N } fuel hs.1 hs.2 hfuel
  refine ⟨_, hinit, ?_⟩
  intro k
  have haddr := incr_hw_recs_times_addr
    { my_node_count := N, my_node_ptr := 0, my_node_inx := 0, hw_cabinet := 0, hw_row := 0,
      hw_cage := 0, hw_slot := 0, hw_cpu := 0, coord := [0, 0, 0], max_dim := [x, y, z] } rfl k
  have hz := hres.one_le
  have hxy : 1 ≤ x ∧ 1 ≤ y := by
    rcases hres.shape with ⟨hx, hy⟩ | ⟨hx, hy⟩ | ⟨hx, hy⟩ <;> omega
  have hax := axesInv_times
    { my_node_count := N, my_node_ptr := 0, my_node_inx := 0, hw_cabinet := 0, hw_row := 0,
      hw_cage := 0, hw_slot := 0, hw_cpu := 0, coord := [0, 0, 0], max_dim := [x, y, z] }
    ⟨0, 0, 0, x, y, z, rfl, rfl, le_refl 0, by omega, le_refl 0, by omega, le_refl 0, by omega⟩ k
  simp only [hw_addr, Prod.mk.injEq] at haddr
  obtain ⟨h1, h2, h3, h4, -⟩ := haddr
  refine ⟨?_, ?_, ?_, ?_, axesInv_getD _ _ hax⟩
  · rw [h1]; omega
  · rw [h2]; omega
  · rw [h3]; omega
  · rw [h4]; omega

/-- The ripple-order theorem at `N = 8`, `k = 5`, fuel 3, from `sample_prior`. -/
theorem hw_addr_ripple_order_witness :
    ∃ s0, _init_hw_recs 3 { sample_prior with my_node_count := 8 } = some s0 ∧
      hw_addr (incr_hw_recs_times 5 s0)
        = (((5 : Nat) : Int) % 4, ((5 : Nat) : Int) / 4 % 8, ((5 : Nat) : Int) / 32 % 3,
            ((5 : Nat) : Int) / 96 % 17, ((5 : Nat) : Int) / 1632) ∧
      hw_rank (hw_addr (incr_hw_recs_times 5 s0)) = ((5 : Nat) : Int) ∧
      ∀ j : Nat, (j : Int) < 8 → j ≠ 5 →
        hw_addr (incr_hw_recs_times j s0) ≠ hw_addr (incr_hw_recs_times 5 s0) :=
  hw_addr_ripple_order sample_prior 8 3 5 ⟨rfl, rfl⟩ (by decide) (by decide) (by decide)

/-- The cursor invariant at `N = 8`, fuel 3, from `sample_prior`. -/
theorem cursor_invariant_reachable_witness :
    ∃ s0, _init_hw_recs 3 { sample_prior with my_node_count := 8 } = some s0 ∧
      ∀ k : Nat, CursorInv (incr_hw_recs_times k s0) :=
  cursor_invariant_reachable sample_prior 8 3 ⟨rfl, rfl⟩ (by decide)

/-! ## Lemmas on `ns_add_node` -/

/-- When the scan finds no adjacent interval it runs off the end of the list. -/
theorem ns_add_node_scan_none (id : Nat) (head : List nodespec)
    (hs : ∀ n ∈ head, n.start ≠ (id + 1) % 2 ^ 32)
    (he : ∀ n ∈ head, n.end_ ≠ (id + 2 ^ 32 - 1) % 2 ^ 32) :
    ns_add_node_scan id head = none := by
  induction head with
  | nil => rfl
  | cons n rest ih =>
    have h1 := hs n (List.mem_cons_self _ _)
    have h2 := he n (List.mem_cons_self _ _)
    have h3 := ih (fun m hm => hs m (List.mem_cons_of_mem _ hm))
      (fun m hm => he m (List.mem_cons_of_mem _ hm))
    rw [ns_add_node_scan, if_neg h1, if_neg h2, h3]
    rfl

/-- A scan that runs off the end of the list met no adjacent interval. -/
theorem ns_add_node_scan_eq_none (id : Nat) (head : List nodespec)
    (h : ns_add_node_scan id head = none) :
    ∀ n ∈ head, n.start ≠ (id + 1) % 2 ^ 32 ∧ n.end_ ≠ (id + 2 ^ 32 - 1) % 2 ^ 32 := by
  induction head with
  | nil => intro n hn; cases hn
  | cons m rest ih =>
    rw [ns_add_node_scan] at h
    split_ifs at h with h1 h2
    have h3 : ns_add_node_scan id rest = none := by simpa using h
    intro n hn
    rcases List.mem_cons.mp hn with rfl | hn
    · exact ⟨h1, h2⟩
    · exact ih h3 n hn

/-- A scan that returns from inside the loop rewrote the `start` of exactly
one node, which matched one of the two tests. -/
theorem ns_add_node_scan_eq_some (id : Nat) (head l : List nodespec)
    (h : ns_add_node_scan id head = some l) :
    ∃ pre n post, head = pre ++ n :: post ∧ l = pre ++ { n with start := id } :: post ∧
      (n.start = (id + 1) % 2 ^ 32 ∨ n.end_ = (id + 2 ^ 32 - 1) % 2 ^ 32) := by
  induction head generalizing l with
  | nil => simp [ns_add_node_scan] at h
  | cons m rest ih =>
    rw [ns_add_node_scan] at h
    split_ifs at h with h1 h2
    · exact ⟨[], m, rest, rfl, by simpa using h.symm, Or.inl h1⟩
    · exact ⟨[], m, rest, rfl, by simpa using h.symm, Or.inr h2⟩
    · rcases hr : ns_add_node_scan id rest with _ | l1
      · simp [hr] at h
      · obtain ⟨pre, n, post, e1, e2, e3⟩ := ih l1 hr
        refine ⟨m :: pre, n, post, by simp [e1], ?_, e3⟩
        simp [hr] at h
        simp [← h, e2]

theorem separated_symm (a b : nodespec) (h : Separated a b) : Separated b a :=
  ⟨h.2.1, h.1, fun x hx => h.2.2 x ⟨hx.2, hx.1⟩⟩

/-- Replacing one node of a pairwise separated list by a node that is
separated from all the others keeps the list pairwise separated. -/
theorem pairwise_separated_replace (pre post : List nodespec) (n n1 : nodespec)
    (hrep : ∀ m, m ∈ pre ∨ m ∈ post → Separated n m → Separated n1 m)
    (h : (pre ++ n :: post).Pairwise Separated) :
    (pre ++ n1 :: post).Pairwise Separated := by
  rw [List.pairwise_append, List.pairwise_cons] at h ⊢
  obtain ⟨hpre, ⟨hn, hpost⟩, hcross⟩ := h
  refine ⟨hpre, ⟨fun m hm => hrep m (Or.inr hm) (hn m hm), hpost⟩, ?_⟩
  intro a ha b hb
  rcases List.mem_cons.mp hb with rfl | hb
  · exact separated_symm _ _
      (hrep a (Or.inl ha) (separated_symm _ _ (hcross a ha n (List.mem_cons_self _ _))))
  · exact hcross a ha b (List.mem_cons_of_mem _ hb)

/-- One insertion of an identifier that is neither in `S` nor the successor
(modulo `2 ^ 32`) of a member of `S` keeps the invariant. -/
theorem rangeInv_add_node (S : Nat → Prop) (l : List nodespec) (id : Nat)
    (hinv : RangeInv S l) (hid : id < 4294967296)
    (hnew : ∀ a, S a → id ≠ a ∧ id ≠ (a + 1) % 4294967296) :
    RangeInv (fun x => S x ∨ x = id) (ns_add_node l id).2 := by
  have hend : ∀ m ∈ l, S m.end_ := fun m hm =>
    hinv.sub m hm m.end_ (by have := hinv.bound m hm; unfold nodespec.ccovers; omega)
  have hno_id : ∀ m ∈ l, ¬ m.ccovers id := fun m hm hc => (hnew _ (hinv.sub m hm id hc)).1 rfl
  have hno_end : ∀ m ∈ l, m.end_ ≠ (id + 2 ^ 32 - 1) % 2 ^ 32 := by
    intro m hm heq
    have h1 := (hinv.bound m hm).2
    have h2 := (hnew _ (hend m hm)).2
    norm_num at heq
    omega
  have hno_pred : ∀ m ∈ l, m.end_ + 1 ≠ id := by
    intro m hm heq
    have h2 := (hnew _ (hend m hm)).2
    omega
  unfold ns_add_node
  rcases hscan : ns_add_node_scan id l with _ | l1
  · have hnone := ns_add_node_scan_eq_none id l hscan
    refine ⟨?_, ?_, ?_⟩
    · intro n hn
      rcases List.mem_cons.mp hn with rfl | hn
      · exact ⟨hid, hid⟩
      · exact hinv.bound n hn
    · intro n hn x hx
      rcases List.mem_cons.mp hn with rfl | hn
      · right
        unfold nodespec.ccovers at hx
        dsimp only at hx
        omega
      · left; exact hinv.sub n hn x hx
    · refine List.pairwise_cons.mpr ⟨?_, hinv.sep⟩
      intro m hm
      have hb := hinv.bound m hm
      have h1 := (hnone m hm).1
      have h3 := hno_id m hm
      norm_num at h1
      unfold nodespec.ccovers at h3
      refine ⟨?_, hno_pred m hm, ?_⟩
      · show id + 1 ≠ m.start
        omega
      · rintro x ⟨⟨hx1, hx2⟩, ⟨hx3, hx4⟩⟩
        dsimp only at hx1 hx2
        omega
  · obtain ⟨pre, n, post, e1, e2, e3⟩ := ns_add_node_scan_eq_some id l l1 hscan
    have hnl : n ∈ l := by rw [e1]; simp
    have hmem : ∀ m, m ∈ pre ∨ m ∈ post → m ∈ l := by
      intro m hm
      rw [e1]
      rcases hm with hm | hm
      · exact List.mem_append_left _ hm
      · exact List.mem_append_right _ (List.mem_cons_of_mem _ hm)
    have hst : n.start = (id + 1) % 4294967296 := by
      rcases e3 with e3 | e3
      · rw [e3]; norm_num
      · exact absurd e3 (hno_end n hnl)
    have hbn := hinv.bound n hnl
    have hn_id := hno_id n hnl
    unfold nodespec.ccovers at hn_id
    dsimp only
    rw [e2]
    refine ⟨?_, ?_, ?_⟩
    · intro m hm
      rcases List.mem_append.mp hm with hm | hm
      · exact hinv.bound m (hmem m (Or.inl hm))
      · rcases List.mem_cons.mp hm with rfl | hm
        · exact ⟨hid, hbn.2⟩
        · exact hinv.bound m (hmem m (Or.inr hm))
    · intro m hm x hx
      rcases List.mem_append.mp hm with hm | hm
      · left; exact hinv.sub m (hmem m (Or.inl hm)) x hx
      · rcases List.mem_cons.mp hm with rfl | hm
        · by_cases hxi : x = id
          · right; exact hxi
          · left
            apply hinv.sub n hnl x
            unfold nodespec.ccovers at hx ⊢
            dsimp only at hx
            omega
        · left; exact hinv.sub m (hmem m (Or.inr hm)) x hx
    · apply pairwise_separated_replace pre post n _ _ (by rw [← e1]; exact hinv.sep)
      intro m hm hsep
      have hml := hmem m hm
      have hbm := hinv.bound m hml
      have hm_id := hno_id m hml
      unfold nodespec.ccovers at hm_id
      refine ⟨hsep.1, hno_pred m hml, ?_⟩
      rintro x ⟨⟨hx1, hx2⟩, ⟨hx3, hx4⟩⟩
      dsimp only at hx1 hx2
      have hov := hsep.2.2 x
      unfold nodespec.covers at hov
      omega

/-- Downward-only insertion of a whole sequence keeps the invariant. -/
theorem rangeInv_add_nodes (ids : List Nat) :
    ∀ (S : Nat → Prop) (l : List nodespec), RangeInv S l →
      (∀ a, S a → a < 4294967296) → (∀ id ∈ ids, id < 4294967296) →
      (∀ id ∈ ids, ∀ a, S a → id ≠ a ∧ id ≠ (a + 1) % 4294967296) →
      ids.Pairwise (fun a b => b ≠ a ∧ b ≠ (a + 1) % 4294967296) →
      (ns_add_nodes l ids).Pairwise Separated := by
  induction ids with
  | nil => intro S l hinv _ _ _ _; exact hinv.sep
  | cons id rest ih =>
    intro S l hinv hS hlt hnew hpw
    rw [List.pairwise_cons] at hpw
    rw [ns_add_nodes]
    apply ih (fun x => S x ∨ x = id) _
      (rangeInv_add_node S l id hinv (hlt id (List.mem_cons_self _ _))
        (hnew id (List.mem_cons_self _ _)))
    · rintro a (ha | rfl)
      · exact hS a ha
      · exact hlt _ (List.mem_cons_self _ _)
    · intro b hb; exact hlt b (List.mem_cons_of_mem _ hb)
    · rintro b hb a (ha | rfl)
      · exact hnew b (List.mem_cons_of_mem _ hb) a ha
      · exact hpw.1 b hb
    · exact hpw.2

/-! ## Claims on the node-range accumulator -/

/-- C2 (failing input): on the set `[5,5]`, `ns_add_node` with id 6 finds the
interval adjacent through `end == id - 1` and writes 6 into `start`, leaving
`[6,5]`; the claim says the interval becomes `[5,6]`. -/
theorem ns_add_node_upward_writes_start :
    ns_add_node [{ start := 5, end_ := 5 }] 6 = (0, [{ start := 6, end_ := 5 }]) ∧
    ns_add_node [{ start := 5, end_ := 5 }] 6 ≠ (0, [{ start := 5, end_ := 6 }]) := by
  decide

/-- C3 (counterexample): inserting 5, 7, 6 leaves `[6,7]` and `[5,5]`, which
are adjacent, and inserting 5 twice leaves two intervals `[5,5]`, which
overlap. -/
theorem ns_add_nodes_adjacent_or_overlap :
    ns_add_nodes [] [5, 7, 6] = [{ start := 6, end_ := 7 }, { start := 5, end_ := 5 }] ∧
    ¬ NoAdjacentOrOverlap (ns_add_nodes [] [5, 7, 6]) ∧
    ns_add_nodes [] [5, 5] = [{ start := 5, end_ := 5 }, { start := 5, end_ := 5 }] ∧
    ¬ NoAdjacentOrOverlap (ns_add_nodes [] [5, 5]) := by
  refine ⟨by decide, ?_, by decide, ?_⟩
  · have e : ns_add_nodes [] [5, 7, 6]
        = [{ start := 6, end_ := 7 }, { start := 5, end_ := 5 }] := by decide
    rw [e]
    intro h
    have hsep : Separated { start := 6, end_ := 7 } { start := 5, end_ := 5 } :=
      List.rel_of_pairwise_cons h (List.mem_cons_self _ _)
    exact hsep.2.1 rfl
  · have e : ns_add_nodes [] [5, 5]
        = [{ start := 5, end_ := 5 }, { start := 5, end_ := 5 }] := by decide
    rw [e]
    intro h
    have hsep : Separated { start := 5, end_ := 5 } { start := 5, end_ := 5 } :=
      List.rel_of_pairwise_cons h (List.mem_cons_self _ _)
    exact hsep.2.2 5 ⟨⟨le_refl 5, le_refl 5⟩, ⟨le_refl 5, le_refl 5⟩⟩

/-- C3 (amended): for every finite sequence of `uint32_t` identifiers in which
no identifier is inserted after itself or after its predecessor (no
identifier is repeated, and `id` is never inserted once `id - 1`, taken modulo
`2^32`, has been), inserted with `ns_add_node` into the empty set, the final
set contains no two distinct intervals that overlap or are adjacent. -/
theorem ns_add_nodes_downward_separated (ids : List Nat)
    (hlt : ∀ id ∈ ids, id < 2 ^ 32)
    (hord : ids.Pairwise (fun a b => b ≠ a ∧ b ≠ (a + 1) % 2 ^ 32)) :
    NoAdjacentOrOverlap (ns_add_nodes [] ids) := by
  have hempty : RangeInv (fun _ => False) [] :=
    ⟨fun n hn => (List.not_mem_nil n hn).elim, fun n hn => (List.not_mem_nil n hn).elim,
      List.Pairwise.nil⟩
  norm_num at hlt hord
  exact rangeInv_add_nodes ids (fun _ => False) [] hempty (fun a ha => ha.elim) hlt
    (fun id _ a ha => ha.elim) hord

/-- Downward-only insertion of 7, 6, 10, 5, 3: the run 7, 6, 5 merges into
`[5,7]` and the three intervals are pairwise separated. -/
theorem ns_add_nodes_downward_separated_witness :
    ns_add_nodes [] [7, 6, 10, 5, 3] = [{ start := 3, end_ := 3 }, { start := 10, end_ := 10 },
      { start := 5, end_ := 7 }] ∧
    NoAdjacentOrOverlap (ns_add_nodes [] [7, 6, 10, 5, 3]) :=
  ⟨by decide, ns_add_nodes_downward_separated [7, 6, 10, 5, 3] (by decide) (by decide)⟩

/-- C6 (failing input): inserting 5, then 6, then 4 into the empty set leaves
the two intervals `[4,4]` and `[6,5]`, not the single interval `[4,6]`. -/
theorem ns_add_nodes_5_6_4 :
    ns_add_nodes [] [5, 6, 4] = [{ start := 4, end_ := 4 }, { start := 6, end_ := 5 }] ∧
    ns_add_nodes [] [5, 6, 4] ≠ [{ start := 4, end_ := 6 }] := by
  decide

/-- C7 (failing input): inserting 10 then 20 leaves `[20,20]` and `[10,10]`;
inserting 11 afterwards leaves `[20,20]` and `[11,10]`: the interval of 10
does not become `[10,11]`. -/
theorem ns_add_nodes_10_20_11 :
    ns_add_nodes [] [10, 20] = [{ start := 20, end_ := 20 }, { start := 10, end_ := 10 }] ∧
    ns_add_nodes [] [10, 20, 11]
      = [{ start := 20, end_ := 20 }, { start := 11, end_ := 10 }] ∧
    { start := 10, end_ := 11 } ∉ ns_add_nodes [] [10, 20, 11] := by
  decide

/-- C9: when no interval of the set has `start == node_id + 1` and none has
`end == node_id - 1` (both sides computed in `uint32_t`, as the code does),
`ns_add_node` returns 0 and the list is the singleton `[id, id]` followed by
the original list, unchanged. -/
theorem ns_add_node_prepends_singleton (head : List nodespec) (id : Nat)
    (hs : ∀ n ∈ head, n.start ≠ (id + 1) % 2 ^ 32)
    (he : ∀ n ∈ head, n.end_ ≠ (id + 2 ^ 32 - 1) % 2 ^ 32) :
    ns_add_node head id = (0, { start := id, end_ := id } :: head) := by
  simp [ns_add_node, ns_add_node_scan_none id head hs he]

/-- Inserting 11 into `[20,22], [3,8]` prepends `[11,11]`. -/
theorem ns_add_node_prepends_singleton_witness :
    ns_add_node [{ start := 20, end_ := 22 }, { start := 3, end_ := 8 }] 11
      = (0, [{ start := 11, end_ := 11 }, { start := 20, end_ := 22 },
          { start := 3, end_ := 8 }]) :=
  ns_add_node_prepends_singleton [{ start := 20, end_ := 22 }, { start := 3, end_ := 8 }] 11
    (by decide) (by decide)

/-- C10 (failing input): `free_nodespec` on a `NULL` head faults on reading
`head->start`, and on the set `[4,6]` it returns with the interval still
allocated. -/
theorem free_nodespec_null_faults :
    free_nodespec [] = none ∧
    free_nodespec [{ start := 4, end_ := 6 }] = some [{ start := 4, end_ := 6 }] := by
  decide

/-! ## Further claims on `_get_dims` -/

/-- C15: for every integer `totalUnits <= 1` (zero and negative values
included) `_get_dims(totalUnits, coord, 3)` returns, with any fuel of at least
one pass, the bounds `{1,1,1}`, whatever `coord` held before. -/
theorem get_dims_le_one (totalUnits a b c : Int) (fuel : Nat) (h : totalUnits ≤ 1) :
    _get_dims (fuel + 1) totalUnits [a, b, c] 3 = some [1, 1, 1] := by
  simp [_get_dims, get_dims_ones_three, _get_dims_while, _get_dims_for, h]

/-- The bounds for `totalUnits = -3` from the previous contents `7, 0, -2`. -/
theorem get_dims_le_one_witness :
    _get_dims (0 + 1) (-3) [7, 0, -2] 3 = some [1, 1, 1] :=
  get_dims_le_one (-3) 7 0 (-2) 0 (by decide)

/-- C19 (counterexample): for `totalUnits = 2` the extents returned are
`2, 1, 1`, which are not non-decreasing in axis order. -/
theorem get_dims_two_not_nondecreasing :
    ∃ x y z : Int, _get_dims 3 2 [0, 0, 0] 3 = some [x, y, z] ∧ ¬ (x ≤ y ∧ y ≤ z) :=
  ⟨2, 1, 1, by decide, by decide⟩

/-- C19 (amended): for every integer `totalUnits`, the extents returned by
`_get_dims(totalUnits, coord, 3)` are non-increasing in axis order:
`coord[0] >= coord[1] >= coord[2]`. -/
theorem get_dims_nonincreasing (totalUnits a b c : Int) :
    ∃ x y z : Int,
      (∀ extra : Nat, _get_dims (_get_dims_fuel totalUnits + extra) totalUnits [a, b, c] 3
        = some [x, y, z]) ∧
      z ≤ y ∧ y ≤ x := by
  obtain ⟨x, y, z, hret, hres⟩ := get_dims_three totalUnits a b c []
  refine ⟨x, y, z, hret, ?_⟩
  rcases hres.shape with ⟨hx, hy⟩ | ⟨hx, hy⟩ | ⟨hx, hy⟩ <;> omega

/-! ## Further claims on the node-range accumulator -/

/-- C16 (failing input): `ns_to_string` on a `NULL` head faults on reading
`head->start`; on the set `[4,6]` it returns `NULL`. -/
theorem ns_to_string_null_faults :
    ns_to_string [] = none ∧ ns_to_string [{ start := 4, end_ := 6 }] = some none := by
  decide

/-- With no adjacent interval in the list, `ns_add_node` links a new node in
front of it. -/
theorem ns_add_node_of_no_match (head : List nodespec) (id : Nat)
    (h : ∀ n ∈ head, n.start ≠ (id + 1) % 2 ^ 32 ∧ n.end_ ≠ (id + 2 ^ 32 - 1) % 2 ^ 32) :
    ns_add_node head id = (0, { start := id, end_ := id } :: head) := by
  simp [ns_add_node, ns_add_node_scan_none id head (fun n hn => (h n hn).1)
    (fun n hn => (h n hn).2)]

theorem id_ne_succ_mod (id : Nat) : id ≠ (id + 1) % 2 ^ 32 := by
  norm_num
  omega

theorem id_ne_pred_mod (id : Nat) : id ≠ (id + 2 ^ 32 - 1) % 2 ^ 32 := by
  norm_num
  omega

/-- After one insertion of `id` into a list with no `end == id - 1` and at most
one `start == id + 1`, no interval is adjacent to `id`. -/
theorem ns_add_node_no_match_after (head : List nodespec) (id : Nat)
    (he : ∀ n ∈ head, n.end_ ≠ (id + 2 ^ 32 - 1) % 2 ^ 32)
    (hs : head.countP (fun n => decide (n.start = (id + 1) % 2 ^ 32)) ≤ 1) :
    ∀ n ∈ (ns_add_node head id).2,
      n.start ≠ (id + 1) % 2 ^ 32 ∧ n.end_ ≠ (id + 2 ^ 32 - 1) % 2 ^ 32 := by
  unfold ns_add_node
  rcases hscan : ns_add_node_scan id head with _ | l1
  · have hnone := ns_add_node_scan_eq_none id head hscan
    intro n hn
    rcases List.mem_cons.mp hn with rfl | hn
    · exact ⟨id_ne_succ_mod id, id_ne_pred_mod id⟩
    · exact hnone n hn
  · obtain ⟨pre, n, post, e1, e2, e3⟩ := ns_add_node_scan_eq_some id head l1 hscan
    have hnl : n ∈ head := by rw [e1]; simp
    have hst : n.start = (id + 1) % 2 ^ 32 := by
      rcases e3 with e3 | e3
      · exact e3
      · exact absurd e3 (he n hnl)
    rw [e1, List.countP_append, List.countP_cons_of_pos _ _ (by simpa using hst)] at hs
    have hpre : pre.countP (fun n => decide (n.start = (id + 1) % 2 ^ 32)) = 0 := by omega
    have hpost : post.countP (fun n => decide (n.start = (id + 1) % 2 ^ 32)) = 0 := by omega
    rw [List.countP_eq_zero] at hpre hpost
    dsimp only
    rw [e2]
    intro m hm
    rcases List.mem_append.mp hm with hm | hm
    · exact ⟨by simpa using hpre m hm, he m (by rw [e1]; exact List.mem_append_left _ hm)⟩
    · rcases List.mem_cons.mp hm with rfl | hm
      · exact ⟨id_ne_succ_mod id, he n hnl⟩
      · exact ⟨by simpa using hpost m hm,
          he m (by rw [e1]; exact List.mem_append_right _ (List.mem_cons_of_mem _ hm))⟩

/-- C11 (counterexample): 6 is neither start nor end of an interval of the set
`[7,7], [7,7]` (left by inserting 7 twice) nor of the set `[7,7], [3,5]`; in
both, inserting 6 twice leaves as many intervals as inserting 6 once,
because the second insertion is merged into the other adjacent interval. -/
theorem ns_add_node_twice_no_extra :
    ns_add_nodes [] [7, 7] = [{ start := 7, end_ := 7 }, { start := 7, end_ := 7 }] ∧
    (∀ n ∈ ns_add_nodes [] [7, 7], n.start ≠ 6 ∧ n.end_ ≠ 6) ∧
    (ns_add_nodes (ns_add_nodes [] [7, 7]) [6, 6]).length
      = (ns_add_nodes (ns_add_nodes [] [7, 7]) [6]).length ∧
    (ns_add_nodes [{ start := 7, end_ := 7 }, { start := 3, end_ := 5 }] [6, 6]).length
      = (ns_add_nodes [{ start := 7, end_ := 7 }, { start := 3, end_ := 5 }] [6]).length := by
  decide

/-- C11 (amended): for every range set and identifier `id` such that no
interval has `end == id - 1` and at most one interval has `start == id + 1`
(both in `uint32_t` arithmetic), inserting `id` twice leaves exactly one more
interval than inserting `id` once: the second insertion is not de-duplicated
and prepends a redundant `[id, id]`; in particular inserting `id` twice into
the empty set yields two intervals `[id, id]`. -/
theorem ns_add_node_twice_extra (head : List nodespec) (id : Nat)
    (he : ∀ n ∈ head, n.end_ ≠ (id + 2 ^ 32 - 1) % 2 ^ 32)
    (hs : head.countP (fun n => decide (n.start = (id + 1) % 2 ^ 32)) ≤ 1) :
    ns_add_nodes head [id, id] = { start := id, end_ := id } :: ns_add_nodes head [id] ∧
    (ns_add_nodes head [id, id]).length = (ns_add_nodes head [id]).length + 1 ∧
    ns_add_nodes [] [id, id] = [{ start := id, end_ := id }, { start := id, end_ := id }] := by
  have key : ∀ l : List nodespec, (∀ n ∈ l, n.end_ ≠ (id + 2 ^ 32 - 1) % 2 ^ 32) →
      l.countP (fun n => decide (n.start = (id + 1) % 2 ^ 32)) ≤ 1 →
      ns_add_nodes l [id, id] = { start := id, end_ := id } :: ns_add_nodes l [id] := by
    intro l hl1 hl2
    simp only [ns_add_nodes]
    rw [ns_add_node_of_no_match _ id (ns_add_node_no_match_after l id hl1 hl2)]
  refine ⟨key head he hs, ?_, ?_⟩
  · rw [key head he hs]; rfl
  · rw [key [] (fun n hn => (List.not_mem_nil n hn).elim) (by simp)]
    simp [ns_add_nodes, ns_add_node, ns_add_node_scan]

/-- Inserting 6 twice into `[7,9], [1,2]`: once gives `[6,9], [1,2]`, twice
adds `[6,6]` in front. -/
theorem ns_add_node_twice_extra_witness :
    ns_add_nodes [{ start := 7, end_ := 9 }, { start := 1, end_ := 2 }] [6, 6]
      = { start := 6, end_ := 6 } ::
          ns_add_nodes [{ start := 7, end_ := 9 }, { start := 1, end_ := 2 }] [6] ∧
    (ns_add_nodes [{ start := 7, end_ := 9 }, { start := 1, end_ := 2 }] [6, 6]).length
      = (ns_add_nodes [{ start := 7, end_ := 9 }, { start := 1, end_ := 2 }] [6]).length + 1 ∧
    ns_add_nodes [] [6, 6] = [{ start := 6, end_ := 6 }, { start := 6, end_ := 6 }] :=
  ns_add_node_twice_extra [{ start := 7, end_ := 9 }, { start := 1, end_ := 2 }] 6
    (by decide) (by decide)

/-! ## Lemmas on `fetch_stmt` and on the spatial odometer -/

theorem incr_hw_recs_my_node_inx (s : HwState) :
    (_incr_hw_recs s).my_node_inx = s.my_node_inx + 1 := by
  unfold _incr_hw_recs
  dsimp only
  split_ifs <;> rfl

theorem incr_hw_recs_my_node_count (s : HwState) :
    (_incr_hw_recs s).my_node_count = s.my_node_count := by
  unfold _incr_hw_recs
  dsimp only
  split_ifs <;> rfl

theorem incr_hw_recs_times_counters (s : HwState) (k : Nat) :
    (incr_hw_recs_times k s).my_node_inx = s.my_node_inx + k ∧
    (incr_hw_recs_times k s).my_node_count = s.my_node_count ∧
    (incr_hw_recs_times k s).max_dim = s.max_dim := by
  induction k with
  | zero => simp [incr_hw_recs_times]
  | succ n ih =>
    refine ⟨?_, ?_, ?_⟩
    · rw [incr_hw_recs_times, incr_hw_recs_my_node_inx, ih.1]
      push_cast
      omega
    · rw [incr_hw_recs_times, incr_hw_recs_my_node_count, ih.2.1]
    · rw [incr_hw_recs_times, incr_hw_recs_max_dim, ih.2.2]

/-- While the node index is below the node count, `fetch_stmt` advances the
walker exactly as `_incr_hw_recs` does. -/
theorem fetch_stmt_times_eq (s : HwState) (h0 : s.my_node_inx = 0) (k : Nat)
    (hk : (k : Int) ≤ s.my_node_count) :
    fetch_stmt_times k s = incr_hw_recs_times k s := by
  induction k with
  | zero => rfl
  | succ n ih =>
    have hn : (n : Int) < s.my_node_count := by push_cast at hk; omega
    rw [fetch_stmt_times, ih (by omega), incr_hw_recs_times]
    have hc := incr_hw_recs_times_counters s n
    have : ¬ (incr_hw_recs_times n s).my_node_inx ≥ (incr_hw_recs_times n s).my_node_count := by
      rw [hc.1, hc.2.1, h0]; omega
    simp [fetch_stmt, this]

/-- Call number `k` of `fetch_stmt`, for `k` below the node count, returns 0
and reports the walker's variables after `k` calls of `_incr_hw_recs`. -/
theorem fetch_stmt_nth_eq (s : HwState) (h0 : s.my_node_inx = 0) (k : Nat)
    (hk : (k : Int) < s.my_node_count) :
    fetch_stmt_nth k s = (0, some
      { cab := (incr_hw_recs_times k s).hw_cabinet, row := (incr_hw_recs_times k s).hw_row,
        cage := (incr_hw_recs_times k s).hw_cage, slot := (incr_hw_recs_times k s).hw_slot,
        cpu := (incr_hw_recs_times k s).hw_cpu, x := (incr_hw_recs_times k s).coord.getD 0 0,
        y := (incr_hw_recs_times k s).coord.getD 1 0,
        z := (incr_hw_recs_times k s).coord.getD 2 0 }) := by
  have hc := incr_hw_recs_times_counters s k
  have : ¬ (incr_hw_recs_times k s).my_node_inx ≥ (incr_hw_recs_times k s).my_node_count := by
    rw [hc.1, hc.2.1, h0]; omega
  simp [fetch_stmt_nth, fetch_stmt_times_eq s h0 k (by omega), fetch_stmt, this]

/-- Adding one to `v` in base `B`: either the last digit grows, or it wraps
to 0 and carries. -/
theorem digit_step (v B : Int) (hB : 1 ≤ B) :
    (v % B + 1 < B → (v + 1) % B = v % B + 1 ∧ (v + 1) / B = v / B) ∧
    (¬ v % B + 1 < B → (v + 1) % B = 0 ∧ (v + 1) / B = v / B + 1) := by
  have hpos : 0 < B := by omega
  have h := Int.emod_add_ediv v B
  have hr0 := Int.emod_nonneg v (by omega : B ≠ 0)
  have hr1 := Int.emod_lt_of_pos v hpos
  constructor
  · intro hlt
    have := (Int.ediv_emod_unique (a := v + 1) (r := v % B + 1) (q := v / B) hpos).mpr
      ⟨by linarith, by omega, hlt⟩
    exact ⟨this.2, this.1⟩
  · intro hge
    have hB' : v % B + 1 = B := by omega
    have := (Int.ediv_emod_unique (a := v + 1) (r := 0) (q := v / B + 1) hpos).mpr
      ⟨by rw [mul_add]; linarith, le_refl 0, hpos⟩
    exact ⟨this.2, this.1⟩

theorem ediv_ediv_pos (w X Y : Int) (hX : 1 ≤ X) (hY : 1 ≤ Y) : w / (X * Y) = w / X / Y := by
  have hXp : 0 < X := by omega
  have hYp : 0 < Y := by omega
  have h1 := Int.emod_add_ediv w X
  have h2 := Int.emod_add_ediv (w / X) Y
  have r0 := Int.emod_nonneg w (by omega : X ≠ 0)
  have r1 := Int.emod_lt_of_pos w hXp
  have t0 := Int.emod_nonneg (w / X) (by omega : Y ≠ 0)
  have t1 := Int.emod_lt_of_pos (w / X) hYp
  have key := (Int.ediv_emod_unique (a := w) (r := w % X + X * (w / X % Y)) (q := w / X / Y)
    (mul_pos hXp hYp)).mpr ⟨by
      have : X * Y * (w / X / Y) = X * (Y * (w / X / Y)) := by ring
      rw [this]
      have : X * (w / X % Y) + X * (Y * (w / X / Y)) = X * (w / X) := by
        rw [← mul_add, h2]
      linarith, by positivity, by nlinarith⟩
  exact key.1

/-- One call of `_incr_dims` moves the position of unit `u` to that of unit
`u + 1`. -/
theorem odometer_step (X Y Z u : Int) (hX : 1 ≤ X) (hY : 1 ≤ Y) (hZ : 1 ≤ Z) :
    _incr_dims [u % X, u / X % Y, u / (X * Y) % Z] [X, Y, Z] 3
      = [(u + 1) % X, (u + 1) / X % Y, (u + 1) / (X * Y) % Z] := by
  have hXY : ∀ w : Int, w / (X * Y) = w / X / Y := fun w => ediv_ediv_pos w X Y hX hY
  rw [incr_dims_three, hXY, hXY]
  obtain ⟨a1, a2⟩ := digit_step u X hX
  obtain ⟨b1, b2⟩ := digit_step (u / X) Y hY
  obtain ⟨c1, c2⟩ := digit_step (u / X / Y) Z hZ
  by_cases h0 : u % X + 1 < X
  · rw [if_pos h0, (a1 h0).1, (a1 h0).2]
  · rw [if_neg h0, (a2 h0).1, (a2 h0).2]
    by_cases h1 : u / X % Y + 1 < Y
    · rw [if_pos h1, (b1 h1).1, (b1 h1).2]
    · rw [if_neg h1, (b2 h1).1, (b2 h1).2]
      by_cases h2 : u / X / Y % Z + 1 < Z
      · rw [if_pos h2, (c1 h2).1]
      · rw [if_neg h2, (c2 h2).1]

/-- The spatial position after `k` calls of `_incr_hw_recs` from a reset
cursor is the mixed-radix expansion of the unit number `k / 4`. -/
theorem coord_closed_form (s : HwState) (X Y Z : Int) (h0 : hw_addr s = (0, 0, 0, 0, 0))
    (hc : s.coord = [0, 0, 0]) (hm : s.max_dim = [X, Y, Z])
    (hX : 1 ≤ X) (hY : 1 ≤ Y) (hZ : 1 ≤ Z) (k : Nat) :
    (incr_hw_recs_times k s).coord
      = [(k : Int) / 4 % X, (k : Int) / 4 / X % Y, (k : Int) / 4 / (X * Y) % Z] := by
  induction k with
  | zero => simp [incr_hw_recs_times, hc]
  | succ n ih =>
    have haddr := incr_hw_recs_times_addr s h0 n
    simp only [hw_addr, Prod.mk.injEq] at haddr
    have hmax := (incr_hw_recs_times_counters s n).2.2
    rw [incr_hw_recs_times, incr_hw_recs_coord, haddr.1, hmax, hm, ih]
    push_cast
    by_cases hw : (n : Int) % 4 + 1 > 3
    · have e : ((n : Int) + 1) / 4 = (n : Int) / 4 + 1 := by omega
      rw [if_pos hw, e, odometer_step X Y Z _ hX hY hZ]
    · have e : ((n : Int) + 1) / 4 = (n : Int) / 4 := by omega
      rw [if_neg hw, e]

/-- Units below `X * Y * Z` with the same mixed-radix digits are equal. -/
theorem digits_inj (X Y Z u v : Int) (hX : 1 ≤ X) (hY : 1 ≤ Y)
    (hu0 : 0 ≤ u) (hu : u < X * Y * Z) (hv0 : 0 ≤ v) (hv : v < X * Y * Z)
    (h0 : u % X = v % X) (h1 : u / X % Y = v / X % Y)
    (h2 : u / (X * Y) % Z = v / (X * Y) % Z) : u = v := by
  have hXp : 0 < X := by omega
  have hYp : 0 < Y := by omega
  rw [ediv_ediv_pos u X Y hX hY, ediv_ediv_pos v X Y hX hY] at h2
  have top : ∀ w : Int, 0 ≤ w → w < X * Y * Z → w / X / Y % Z = w / X / Y := by
    intro w hw0 hw
    apply Int.emod_eq_of_lt
    · exact Int.ediv_nonneg (Int.ediv_nonneg hw0 (by omega)) (by omega)
    · apply Int.ediv_lt_of_lt_mul hYp
      apply Int.ediv_lt_of_lt_mul hXp
      calc w < X * Y * Z := hw
        _ = Z * Y * X := by ring
  rw [top u hu0 hu, top v hv0 hv] at h2
  have e1 : u / X = v / X := by
    have a := Int.emod_add_ediv (u / X) Y
    have b := Int.emod_add_ediv (v / X) Y
    rw [h1, h2] at a
    linarith
  have a := Int.emod_add_ediv u X
  have b := Int.emod_add_ediv v X
  rw [h0, e1] at a
  linarith

/-- What `_init_hw_recs` stores in `max_dim` is what `_get_dims` returned. -/
theorem init_hw_recs_max_dim (fuel : Nat) (s t : HwState) (h : _init_hw_recs fuel s = some t) :
    _get_dims fuel (Int.tdiv s.my_node_count 4) s.max_dim 3 = some t.max_dim := by
  simp only [_init_hw_recs, Option.map_eq_some'] at h
  obtain ⟨m, hm, rfl⟩ := h
  exact hm

/-- The result of `_get_dims` does not depend on what `coord` held before. -/
theorem get_dims_prior_irrelevant (fuel : Nat) (spur : Int) (l1 l2 : List Int)
    (h1 : l1.length = 3) (h2 : l2.length = 3) :
    _get_dims fuel spur l1 3 = _get_dims fuel spur l2 3 := by
  match l1, h1, l2, h2 with
  | [a, b, c], _, [a1, b1, c1], _ => simp [_get_dims, get_dims_ones_three]

theorem get_dims_eight (fuel : Nat) (l : List Int) (hl : l.length = 3) (hfuel : 2 ≤ fuel) :
    _get_dims fuel 8 l 3 = some [2, 2, 2] := by
  obtain ⟨extra, rfl⟩ := Nat.exists_eq_add_of_le hfuel
  rw [get_dims_prior_irrelevant (2 + extra) 8 l [0, 0, 0] hl rfl]
  have h : _get_dims_while 8 3 2 1 [1, 1, 1] = some (8, [2, 2, 2]) := by decide
  have := get_dims_while_mono 8 3 extra 2 1 [1, 1, 1] _ h
  simp [_get_dims, get_dims_ones_three, this]

/-! ## Further claims on the coordinate walker -/

/-- C12: with `my_node_count = 32`, `_init_hw_recs` computes
`max_dim = {2,2,2}`, and call number `i` (`i = 0..31`) of the 32 following
`fetch_stmt` calls returns 0 and reports `hw_cpu = i mod 4`, `hw_slot = i / 4`,
and cage, cabinet and row all 0. -/
theorem walk_of_32_nodes (s : HwState) (fuel : Nat) (hs : s.arrays_ok)
    (hfuel : _get_dims_fuel (Int.tdiv 32 4) ≤ fuel) :
    ∃ s0, _init_hw_recs fuel { s with my_node_count := 32 } = some s0 ∧
      s0.max_dim = [2, 2, 2] ∧
      ∀ i : Nat, i < 32 → ∃ r : BindRow, fetch_stmt_nth i s0 = (0, some r) ∧
        r.cpu = (i : Int) % 4 ∧ r.slot = (i : Int) / 4 ∧ r.cage = 0 ∧ r.cab = 0 ∧ r.row = 0 := by
  obtain ⟨x, y, z, hinit, -⟩ :=
    init_hw_recs_spec { s with my_node_count := 32 } fuel hs.1 hs.2 hfuel
  have hfuel2 : 2 ≤ fuel := by
    have : _get_dims_fuel (Int.tdiv 32 4) = 9 := by decide
    omega
  have hget := init_hw_recs_max_dim fuel _ _ hinit
  have h8 : Int.tdiv 32 4 = 8 := by decide
  simp only [h8] at hget
  rw [get_dims_eight fuel s.max_dim hs.2 hfuel2] at hget
  refine ⟨_, hinit, (Option.some.inj hget).symm, ?_⟩
  intro i hi
  refine ⟨_, fetch_stmt_nth_eq _ rfl i (by simp only; omega), ?_⟩
  have haddr := incr_hw_recs_times_addr
    { my_node_count := 32, my_node_ptr := 0, my_node_inx := 0, hw_cabinet := 0, hw_row := 0,
      hw_cage := 0, hw_slot := 0, hw_cpu := 0, coord := [0, 0, 0], max_dim := [x, y, z] } rfl i
  simp only [hw_addr, Prod.mk.injEq] at haddr
  obtain ⟨h1, h2, h3, h4, h5⟩ := haddr
  refine ⟨h1, ?_, ?_, ?_, ?_⟩
  · simp only; rw [h2]; omega
  · simp only; rw [h3]; omega
  · simp only; rw [h4]; omega
  · simp only; rw [h5]; omega

/-- The walk of 32 nodes started from `sample_prior` with fuel 9. -/
theorem walk_of_32_nodes_witness :
    ∃ s0, _init_hw_recs 9 { sample_prior with my_node_count := 32 } = some s0 ∧
      s0.max_dim = [2, 2, 2] ∧
      ∀ i : Nat, i < 32 → ∃ r : BindRow, fetch_stmt_nth i s0 = (0, some r) ∧
        r.cpu = (i : Int) % 4 ∧ r.slot = (i : Int) / 4 ∧ r.cage = 0 ∧ r.cab = 0 ∧ r.row = 0 :=
  walk_of_32_nodes sample_prior 9 ⟨rfl, rfl⟩ (by decide)

/-- C17: for every node count `N` and any two prior cursor states,
`_init_hw_recs` returns the same state in both runs: all five counters 0,
`coord = (0,0,0)`, `my_node_inx = 0` and `max_dim` what `_get_dims(N/4)`
returns; so every later `fetch_stmt` call returns and reports the same in both
runs. -/
theorem init_hw_recs_deterministic (s1 s2 : HwState) (N : Int) (fuel : Nat)
    (h1 : s1.arrays_ok) (h2 : s2.arrays_ok) (hfuel : _get_dims_fuel (Int.tdiv N 4) ≤ fuel) :
    ∃ s0, _init_hw_recs fuel { s1 with my_node_count := N } = some s0 ∧
      _init_hw_recs fuel { s2 with my_node_count := N } = some s0 ∧
      hw_addr s0 = (0, 0, 0, 0, 0) ∧ s0.coord = [0, 0, 0] ∧ s0.my_node_inx = 0 ∧
      s0.my_node_count = N ∧
      _get_dims fuel (Int.tdiv N 4) s1.max_dim 3 = some s0.max_dim ∧
      _get_dims fuel (Int.tdiv N 4) s2.max_dim 3 = some s0.max_dim ∧
      ∀ t1 t2, _init_hw_recs fuel { s1 with my_node_count := N } = some t1 →
        _init_hw_recs fuel { s2 with my_node_count := N } = some t2 →
        ∀ k : Nat, fetch_stmt_nth k t1 = fetch_stmt_nth k t2 := by
  obtain ⟨x, y, z, hinit1, -⟩ :=
    init_hw_recs_spec { s1 with my_node_count := N } fuel h1.1 h1.2 hfuel
  obtain ⟨x2, y2, z2, hinit2, -⟩ :=
    init_hw_recs_spec { s2 with my_node_count := N } fuel h2.1 h2.2 hfuel
  have hg1 := init_hw_recs_max_dim fuel _ _ hinit1
  have hg2 := init_hw_recs_max_dim fuel _ _ hinit2
  simp only at hg1 hg2
  have hsame : [x2, y2, z2] = [x, y, z] := by
    rw [get_dims_prior_irrelevant fuel (Int.tdiv N 4) s2.max_dim s1.max_dim h2.2 h1.2, hg1] at hg2
    exact (Option.some.inj hg2).symm
  rw [hsame] at hinit2
  refine ⟨_, hinit1, hinit2, rfl, rfl, rfl, rfl, hg1, ?_, ?_⟩
  · rw [get_dims_prior_irrelevant fuel (Int.tdiv N 4) s2.max_dim s1.max_dim h2.2 h1.2]
    exact hg1
  · intro t1 t2 e1 e2 k
    rw [hinit1] at e1
    rw [hinit2] at e2
    rw [← Option.some.inj e1, ← Option.some.inj e2]

/-- Two different prior states reset for 8 nodes with fuel 3. -/
theorem init_hw_recs_deterministic_witness :
    ∃ s0, _init_hw_recs 3 { sample_prior with my_node_count := 8 } = some s0 ∧
      _init_hw_recs 3 { sample_prior_other with my_node_count := 8 } = some s0 ∧
      hw_addr s0 = (0, 0, 0, 0, 0) ∧ s0.coord = [0, 0, 0] ∧ s0.my_node_inx = 0 ∧
      s0.my_node_count = 8 ∧
      _get_dims 3 (Int.tdiv 8 4) sample_prior.max_dim 3 = some s0.max_dim ∧
      _get_dims 3 (Int.tdiv 8 4) sample_prior_other.max_dim 3 = some s0.max_dim ∧
      ∀ t1 t2, _init_hw_recs 3 { sample_prior with my_node_count := 8 } = some t1 →
        _init_hw_recs 3 { sample_prior_other with my_node_count := 8 } = some t2 →
        ∀ k : Nat, fetch_stmt_nth k t1 = fetch_stmt_nth k t2 :=
  init_hw_recs_deterministic sample_prior sample_prior_other 8 3
    ⟨rfl, rfl⟩ ⟨rfl, rfl⟩ (by decide)

/-- The mixed-radix digits of `u + X * Y * Z` are those of `u`. -/
theorem digits_period (X Y Z u : Int) (hX : 1 ≤ X) (hY : 1 ≤ Y) :
    [(u + X * Y * Z) % X, (u + X * Y * Z) / X % Y, (u + X * Y * Z) / (X * Y) % Z]
      = [u % X, u / X % Y, u / (X * Y) % Z] := by
  have e0 : u + X * Y * Z = u + X * (Y * Z) := by ring
  have d1 : (u + X * (Y * Z)) / X = u / X + Y * Z :=
    Int.add_mul_ediv_left u (Y * Z) (by omega)
  have d2 : (u / X + Y * Z) / Y = u / X / Y + Z := Int.add_mul_ediv_left (u / X) Z (by omega)
  rw [ediv_ediv_pos _ X Y hX hY, ediv_ediv_pos u X Y hX hY, e0, d1, d2,
    Int.add_mul_emod_self_left, Int.add_mul_emod_self_left, Int.add_emod_self]

/-- C18: for every node count `N`, `_init_hw_recs` returns with
`max_dim = (X, Y, Z)`, and for every `k >= 0`, after `k` calls of
`_incr_hw_recs`, with `u = k / 4`, the spatial position is
`coord = (u mod X, (u / X) mod Y, (u / (X*Y)) mod Z)`: axis 0 is the fastest
digit, and the position of unit `u + X*Y*Z` is that of unit `u`. -/
theorem spatial_odometer_closed_form (s : HwState) (N : Int) (fuel : Nat) (hs : s.arrays_ok)
    (hfuel : _get_dims_fuel (Int.tdiv N 4) ≤ fuel) :
    ∃ s0 X Y Z, _init_hw_recs fuel { s with my_node_count := N } = some s0 ∧
      s0.max_dim = [X, Y, Z] ∧
      ∀ k : Nat, (incr_hw_recs_times k s0).max_dim = [X, Y, Z] ∧
        (incr_hw_recs_times k s0).coord
          = [(k : Int) / 4 % X, (k : Int) / 4 / X % Y, (k : Int) / 4 / (X * Y) % Z] ∧
        ∀ j : Nat, (j : Int) / 4 = (k : Int) / 4 + X * Y * Z →
          (incr_hw_recs_times j s0).coord = (incr_hw_recs_times k s0).coord := by
  obtain ⟨x, y, z, hinit, hres⟩ :=
    init_hw_recs_spec { s with my_node_count := N } fuel hs.1 hs.2 hfuel
  have hz := hres.one_le
  have hxy : 1 ≤ x ∧ 1 ≤ y := by
    rcases hres.shape with ⟨hx, hy⟩ | ⟨hx, hy⟩ | ⟨hx, hy⟩ <;> omega
  have key : ∀ k : Nat, (incr_hw_recs_times k
      { my_node_count := N, my_node_ptr := 0, my_node_inx := 0, hw_cabinet := 0, hw_row := 0,
        hw_cage := 0, hw_slot := 0, hw_cpu := 0, coord := [0, 0, 0], max_dim := [x, y, z] }).coord
      = [(k : Int) / 4 % x, (k : Int) / 4 / x % y, (k : Int) / 4 / (x * y) % z] := by
    intro k
    refine coord_closed_form _ x y z ?_ ?_ ?_ hxy.1 hxy.2 hz k <;> rfl
  refine ⟨_, x, y, z, hinit, rfl, ?_⟩
  intro k
  refine ⟨(incr_hw_recs_times_counters _ k).2.2, key k, ?_⟩
  intro j hj
  rw [key j, key k, hj]
  exact digits_period x y z _ hxy.1 hxy.2

/-- The closed form of the spatial position for 8 nodes from `sample_prior`. -/
theorem spatial_odometer_closed_form_witness :
    ∃ s0 X Y Z, _init_hw_recs 3 { sample_prior with my_node_count := 8 } = some s0 ∧
      s0.max_dim = [X, Y, Z] ∧
      ∀ k : Nat, (incr_hw_recs_times k s0).max_dim = [X, Y, Z] ∧
        (incr_hw_recs_times k s0).coord
          = [(k : Int) / 4 % X, (k : Int) / 4 / X % Y, (k : Int) / 4 / (X * Y) % Z] ∧
        ∀ j : Nat, (j : Int) / 4 = (k : Int) / 4 + X * Y * Z →
          (incr_hw_recs_times j s0).coord = (incr_hw_recs_times k s0).coord :=
  spatial_odometer_closed_form sample_prior 8 3 ⟨rfl, rfl⟩ (by decide)

/-- C14 (counterexample): with `my_node_count = 5`, `max_dim` is `{1,1,1}`, and
the calls number 0 and 4 of `fetch_stmt`, which belong to the units 0 and 1,
both report the spatial position `(0,0,0)`. -/
theorem spatial_position_repeated :
    (_init_hw_recs 2 { sample_prior with my_node_count := 5 }).map
        (fun s0 => (s0.max_dim, fetch_stmt_nth 0 s0, fetch_stmt_nth 4 s0))
      = some ([1, 1, 1],
          (0, some { cab := 0, row := 0, cage := 0, slot := 0, cpu := 0, x := 0, y := 0, z := 0 }),
          (0, some { cab := 0, row := 0, cage := 0, slot := 1, cpu := 0, x := 0, y := 0, z := 0 }))
      ∧ (0 : Int) / 4 ≠ (4 : Int) / 4 := by
  decide

/-- C14 (amended): for every node count `N > 0` and all `k1, k2 < N` in
different 4-cpu units (`k1/4 != k2/4`), `_init_hw_recs` returns with
`max_dim = (X, Y, Z)` where `X*Y*Z >= N/4`, and when both units lie below
`X*Y*Z` (`k1, k2 < 4*X*Y*Z`, which holds for all `k < N` when `N` is a
multiple of 4) the spatial coordinates that `fetch_stmt` reports for node `k1`
and for node `k2` differ. -/
theorem spatial_positions_distinct (s : HwState) (N : Int) (fuel k1 k2 : Nat)
    (hs : s.arrays_ok) (_hN : 0 < N) (hk1 : (k1 : Int) < N) (hk2 : (k2 : Int) < N)
    (hne : (k1 : Int) / 4 ≠ (k2 : Int) / 4) (hfuel : _get_dims_fuel (Int.tdiv N 4) ≤ fuel) :
    ∃ s0 X Y Z, _init_hw_recs fuel { s with my_node_count := N } = some s0 ∧
      s0.max_dim = [X, Y, Z] ∧ Int.tdiv N 4 ≤ X * Y * Z ∧
      ((k1 : Int) < 4 * (X * Y * Z) → (k2 : Int) < 4 * (X * Y * Z) →
        ∃ r1 r2 : BindRow, fetch_stmt_nth k1 s0 = (0, some r1) ∧
          fetch_stmt_nth k2 s0 = (0, some r2) ∧ (r1.x, r1.y, r1.z) ≠ (r2.x, r2.y, r2.z)) := by
  obtain ⟨x, y, z, hinit, hres⟩ :=
    init_hw_recs_spec { s with my_node_count := N } fuel hs.1 hs.2 hfuel
  have hz := hres.one_le
  have hxy : 1 ≤ x ∧ 1 ≤ y := by
    rcases hres.shape with ⟨hx, hy⟩ | ⟨hx, hy⟩ | ⟨hx, hy⟩ <;> omega
  have key : ∀ k : Nat, (incr_hw_recs_times k
      { my_node_count := N, my_node_ptr := 0, my_node_inx := 0, hw_cabinet := 0, hw_row := 0,
        hw_cage := 0, hw_slot := 0, hw_cpu := 0, coord := [0, 0, 0], max_dim := [x, y, z] }).coord
      = [(k : Int) / 4 % x, (k : Int) / 4 / x % y, (k : Int) / 4 / (x * y) % z] := by
    intro k
    refine coord_closed_form _ x y z ?_ ?_ ?_ hxy.1 hxy.2 hz k <;> rfl
  refine ⟨_, x, y, z, hinit, rfl, hres.covers, ?_⟩
  intro hb1 hb2
  refine ⟨_, _, fetch_stmt_nth_eq _ rfl k1 hk1, fetch_stmt_nth_eq _ rfl k2 hk2, ?_⟩
  simp only [key k1, key k2, List.getD_cons_zero, List.getD_cons_succ]
  intro heq
  simp only [Prod.mk.injEq] at heq
  obtain ⟨e0, e1, e2⟩ := heq
  exact hne (digits_inj x y z _ _ hxy.1 hxy.2 (by omega) (by omega) (by omega) (by omega)
    e0 e1 e2)

/-- Nodes 1 and 5 of a walk over 8 nodes from `sample_prior`. -/
theorem spatial_positions_distinct_witness :
    ∃ s0 X Y Z, _init_hw_recs 3 { sample_prior with my_node_count := 8 } = some s0 ∧
      s0.max_dim = [X, Y, Z] ∧ Int.tdiv 8 4 ≤ X * Y * Z ∧
      (((1 : Nat) : Int) < 4 * (X * Y * Z) → ((5 : Nat) : Int) < 4 * (X * Y * Z) →
        ∃ r1 r2 : BindRow, fetch_stmt_nth 1 s0 = (0, some r1) ∧
          fetch_stmt_nth 5 s0 = (0, some r2) ∧ (r1.x, r1.y, r1.z) ≠ (r2.x, r2.y, r2.z)) :=
  spatial_positions_distinct sample_prior 8 3 1 5 ⟨rfl, rfl⟩ (by decide) (by decide) (by decide)
    (by decide) (by decide)

/-! ## Minimality of `_get_dims` among near-cubic coverings -/

theorem prod3_le (x y z x1 y1 z1 : Int) (hx : 0 ≤ x) (hy : 0 ≤ y) (hz : 0 ≤ z)
    (h1 : x ≤ x1) (h2 : y ≤ y1) (h3 : z ≤ z1) : x * y * z ≤ x1 * y1 * z1 := by
  have hxy : x * y ≤ x1 * y1 := mul_le_mul h1 h2 hy (le_trans hx h1)
  exact mul_le_mul hxy h3 hz (mul_nonneg (le_trans hx h1) (le_trans hy h2))

/-- Positive extents whose largest exceeds the smallest by at most 1 are `m`
or `m + 1` each, and one of them is `m`. -/
theorem near_cubic_cases (x y z : Int) (hx : 0 < x) (hy : 0 < y) (hz : 0 < z)
    (h : max x (max y z) - min x (min y z) ≤ 1) :
    ∃ m : Int, 1 ≤ m ∧ (x = m ∨ x = m + 1) ∧ (y = m ∨ y = m + 1) ∧ (z = m ∨ z = m + 1) ∧
      (x = m ∨ y = m ∨ z = m) := by
  refine ⟨min x (min y z), ?_, ?_, ?_, ?_, ?_⟩ <;>
    simp only [max_def, min_def] at h ⊢ <;> split_ifs at h ⊢ <;> omega

theorem get_dims_le_one_aux (t a b c : Int) (fuel : Nat) (h : t ≤ 1) :
    _get_dims (fuel + 1) t [a, b, c] 3 = some [1, 1, 1] := by
  simp [_get_dims, get_dims_ones_three, _get_dims_while, _get_dims_for, h]

/-- The product of the returned extents `(p, q, r)` is at most that of any
near-cubic covering `(x, y, z)`. -/
theorem near_cubic_minimal_aux (t p q r x y z m : Int) (hr : 1 ≤ r) (hm : 1 ≤ m)
    (shape : (p = r ∧ q = r) ∨ (p = r + 1 ∧ q = r) ∨ (p = r + 1 ∧ q = r + 1))
    (pc : p = r → q = r → r * r * (r - 1) < t)
    (p1 : p = r + 1 → q = r → r * r * r < t)
    (p2 : p = r + 1 → q = r + 1 → (r + 1) * r * r < t)
    (hx : x = m ∨ x = m + 1) (hy : y = m ∨ y = m + 1) (hz : z = m ∨ z = m + 1)
    (hmin : x = m ∨ y = m ∨ z = m) (hcov : t ≤ x * y * z) : p * q * r ≤ x * y * z := by
  have hrr : 0 < r * r := mul_pos (by omega) (by omega)
  rcases lt_trichotomy m r with hlt | heq | hgt
  · exfalso
    have hub : x * y * z ≤ r * r * (r - 1) := by
      rcases hmin with h | h | h
      · calc x * y * z ≤ (r - 1) * r * r :=
              prod3_le _ _ _ _ _ _ (by omega) (by omega) (by omega) (by omega) (by omega)
                (by omega)
          _ = r * r * (r - 1) := by ring
      · calc x * y * z ≤ r * (r - 1) * r :=
              prod3_le _ _ _ _ _ _ (by omega) (by omega) (by omega) (by omega) (by omega)
                (by omega)
          _ = r * r * (r - 1) := by ring
      · exact prod3_le _ _ _ _ _ _ (by omega) (by omega) (by omega) (by omega) (by omega)
          (by omega)
    have hc1 : r * r * (r - 1) ≤ r * r * r :=
      prod3_le _ _ _ _ _ _ (by omega) (by omega) (by omega) (le_refl _) (le_refl _) (by omega)
    have hc2 : r * r * r ≤ (r + 1) * r * r :=
      prod3_le _ _ _ _ _ _ (by omega) (by omega) (by omega) (by omega) (le_refl _) (le_refl _)
    rcases shape with ⟨e1, e2⟩ | ⟨e1, e2⟩ | ⟨e1, e2⟩
    · have := pc e1 e2; omega
    · have := p1 e1 e2; omega
    · have := p2 e1 e2; omega
  · subst heq
    have hmm : 0 < m * m * m := mul_pos hrr (by omega)
    rcases shape with ⟨e1, e2⟩ | ⟨e1, e2⟩ | ⟨e1, e2⟩
    · subst e1 e2
      exact prod3_le _ _ _ _ _ _ (by omega) (by omega) (by omega) (by omega) (by omega) (by omega)
    · have hp := p1 e1 e2
      subst e1 e2
      rcases hx with hx | hx
      · rcases hy with hy | hy
        · rcases hz with hz | hz
          · subst hx hy hz; omega
          · subst hx hy hz; nlinarith
        · subst hx hy; rcases hz with hz | hz <;> subst hz <;> nlinarith
      · subst hx; rcases hy with hy | hy <;> rcases hz with hz | hz <;> subst hy hz <;> nlinarith
    · have hp := p2 e1 e2
      subst e1 e2
      rcases hx with hx | hx <;> rcases hy with hy | hy <;> rcases hz with hz | hz <;>
        subst hx hy hz <;> nlinarith
  · rcases shape with ⟨e1, e2⟩ | ⟨e1, e2⟩ | ⟨e1, e2⟩ <;> subst e1 e2 <;>
      exact prod3_le _ _ _ _ _ _ (by omega) (by omega) (by omega) (by omega) (by omega)
        (by omega)

/-- C13: for every `totalUnits >= 1`, if `(a, b, c)` are the extents returned
by `_get_dims(totalUnits, coord, 3)`, then every triple `(x, y, z)` of positive
integers with `max - min <= 1` and `x*y*z >= totalUnits` has
`a*b*c <= x*y*z`. -/
theorem get_dims_minimal_near_cubic (totalUnits a0 b0 c0 : Int) (_h : 1 ≤ totalUnits) :
    ∃ a b c : Int,
      (∀ extra : Nat, _get_dims (_get_dims_fuel totalUnits + extra) totalUnits [a0, b0, c0] 3
        = some [a, b, c]) ∧
      ∀ x y z : Int, 0 < x → 0 < y → 0 < z → max x (max y z) - min x (min y z) ≤ 1 →
        totalUnits ≤ x * y * z → a * b * c ≤ x * y * z := by
  obtain ⟨p, q, r, hret, hres⟩ := get_dims_three totalUnits a0 b0 c0 []
  refine ⟨p, q, r, hret, ?_⟩
  intro x y z hx hy hz hnear hcov
  by_cases ht : totalUnits ≤ 1
  · have h1 := hret 0
    have h2 := get_dims_le_one_aux totalUnits a0 b0 c0 (totalUnits.toNat + 0) ht
    have e : _get_dims_fuel totalUnits + 0 = totalUnits.toNat + 0 + 1 := by
      unfold _get_dims_fuel; omega
    rw [e, h2] at h1
    have h3 := Option.some.inj h1
    simp only [List.cons.injEq, and_true] at h3
    obtain ⟨rfl, rfl, rfl⟩ := h3
    exact prod3_le 1 1 1 x y z (by omega) (by omega) (by omega) (by omega) (by omega) (by omega)
  · obtain ⟨m, hm, cx, cy, cz, cmin⟩ := near_cubic_cases x y z hx hy hz hnear
    apply near_cubic_minimal_aux totalUnits p q r x y z m hres.one_le hm hres.shape ?_
      hres.prev_one hres.prev_two cx cy cz cmin hcov
    intro e1 e2
    rcases hres.prev_cube e1 e2 with h | h
    · exact absurd h ht
    · exact h.2

/-- Minimality for `totalUnits = 5` (the extents returned are `2, 2, 2`). -/
theorem get_dims_minimal_near_cubic_witness :
    ∃ a b c : Int,
      (∀ extra : Nat, _get_dims (_get_dims_fuel 5 + extra) 5 [0, 0, 0] 3 = some [a, b, c]) ∧
      ∀ x y z : Int, 0 < x → 0 < y → 0 < z → max x (max y z) - min x (min y z) ≤ 1 →
        5 ≤ x * y * z → a * b * c ≤ x * y * z :=
  get_dims_minimal_near_cubic 5 0 0 0 (by decide)

/-! ## Trace of the loop of `_get_dims` -/

/-- Dropping the trace from `_get_dims_for_trace` gives `_get_dims_for`. -/
theorem get_dims_for_trace_erase (spur : Int) :
    ∀ (n i : Nat) (count : Int) (coord : List Int),
      _get_dims_for spur n i count coord
        = ((_get_dims_for_trace spur n i count coord).1,
            (_get_dims_for_trace spur n i count coord).2.1,
            (_get_dims_for_trace spur n i count coord).2.2.1) := by
  intro n
  induction n with
  | zero => intro i count coord; rfl
  | succ k ih =>
    intro i count coord
    rw [_get_dims_for, _get_dims_for_trace]
    by_cases h : count ≥ spur
    · simp only [h, if_true]
    · simp only [h, if_false]
      exact ih _ _ _

/-- Dropping the trace from `_get_dims_while_trace` gives `_get_dims_while`. -/
theorem get_dims_while_trace_erase (spur : Int) (dims : Nat) :
    ∀ (fuel : Nat) (count : Int) (coord : List Int),
      (_get_dims_while_trace spur dims fuel count coord).map (fun r => (r.1, r.2.1))
        = _get_dims_while spur dims fuel count coord := by
  intro fuel
  induction fuel with
  | zero => intro count coord; rfl
  | succ n ih =>
    intro count coord
    rw [_get_dims_while_trace, _get_dims_while, get_dims_for_trace_erase]
    rcases hfor : _get_dims_for_trace spur dims 0 count coord with ⟨b, count1, coord1, tr⟩
    cases b with
    | true => rfl
    | false =>
      simp only [Option.map_map]
      rw [← ih count1 coord1]
      rfl

/-- More fuel does not change what the traced loop returns. -/
theorem get_dims_while_trace_mono (spur : Int) (dims : Nat) (extra : Nat) :
    ∀ (fuel : Nat) (count : Int) (coord : List Int) (r : Int × List Int × List DimsStep),
      _get_dims_while_trace spur dims fuel count coord = some r →
      _get_dims_while_trace spur dims (fuel + extra) count coord = some r := by
  intro fuel
  induction fuel with
  | zero => intro count coord r h; simp [_get_dims_while_trace] at h
  | succ n ih =>
    intro count coord r h
    rw [Nat.add_right_comm, _get_dims_while_trace]
    rw [_get_dims_while_trace] at h
    rcases hfor : _get_dims_for_trace spur dims 0 count coord with ⟨b, count1, coord1, tr⟩
    rw [hfor] at h
    cases b with
    | true => simpa using h
    | false =>
      simp only [Option.map_eq_some'] at h ⊢
      obtain ⟨r1, hr1, hr⟩ := h
      exact ⟨r1, ih count1 coord1 r1 hr1, hr⟩

/-- One pass of the traced inner loop from the cube `(a, a, a)`. -/
theorem get_dims_for_trace_cube (spur a : Int) (ha : 1 ≤ a) :
    _get_dims_for_trace spur 3 0 (a * a * a) [a, a, a] =
      if spur ≤ a * a * a then (true, a * a * a, [a, a, a], [])
      else if spur ≤ (a + 1) * a * a then
        (true, (a + 1) * a * a, [a + 1, a, a],
          [⟨0, a * a * a, [a, a, a], a * a, (a + 1) * a * a, [a + 1, a, a]⟩])
      else if spur ≤ (a + 1) * (a + 1) * a then
        (true, (a + 1) * (a + 1) * a, [a + 1, a + 1, a],
          [⟨0, a * a * a, [a, a, a], a * a, (a + 1) * a * a, [a + 1, a, a]⟩,
           ⟨1, (a + 1) * a * a, [a + 1, a, a], (a + 1) * a, (a + 1) * (a + 1) * a,
             [a + 1, a + 1, a]⟩])
      else
        (false, (a + 1) * (a + 1) * (a + 1), [a + 1, a + 1, a + 1],
          [⟨0, a * a * a, [a, a, a], a * a, (a + 1) * a * a, [a + 1, a, a]⟩,
           ⟨1, (a + 1) * a * a, [a + 1, a, a], (a + 1) * a, (a + 1) * (a + 1) * a,
             [a + 1, a + 1, a]⟩,
           ⟨2, (a + 1) * (a + 1) * a, [a + 1, a + 1, a], (a + 1) * (a + 1),
             (a + 1) * (a + 1) * (a + 1), [a + 1, a + 1, a + 1]⟩]) := by
  have ha0 : a ≠ 0 := by omega
  have q1 : Int.tdiv (a * a * a) a = a * a := tdiv_of_eq_mul _ _ a ha0 rfl
  have m1 : a * a * (a + 1) = (a + 1) * a * a := by ring
  have q2 : Int.tdiv ((a + 1) * a * a) a = (a + 1) * a := tdiv_of_eq_mul _ _ a ha0 rfl
  have m2 : (a + 1) * a * (a + 1) = (a + 1) * (a + 1) * a := by ring
  have q3 : Int.tdiv ((a + 1) * (a + 1) * a) a = (a + 1) * (a + 1) :=
    tdiv_of_eq_mul _ _ a ha0 rfl
  by_cases h1 : spur ≤ a * a * a
  · simp [_get_dims_for_trace, h1]
  · by_cases h2 : spur ≤ (a + 1) * a * a
    · simp [_get_dims_for_trace, h1, h2, q1, m1]
    · by_cases h3 : spur ≤ (a + 1) * (a + 1) * a
      · simp [_get_dims_for_trace, h1, h2, h3, q1, m1, q2, m2]
      · simp [_get_dims_for_trace, h1, h2, h3, q1, m1, q2, m2, q3]

theorem le_max_bound (spur v : Int) (h : v ≤ 2 * (spur - 1)) :
    v ≤ max 1 (2 * (spur - 1)) := le_trans h (le_max_right _ _)

theorem max_bound_lt (spur : Int) (h : spur ≤ 536870911) :
    max 1 (2 * (spur - 1)) < 2 ^ 31 := by
  apply max_lt
  · norm_num
  · norm_num; omega

/-- A loop-body execution entered with `count < spur`, an exact division by
`d >= 1` and a non-negative quotient satisfies `DimsStep.ok`, and fits 32 bits
when `spur <= 536870911`. -/
theorem dimsStep_ok_intro (spur : Int) (i : Nat) (cb : Int) (lb : List Int) (quot after : Int)
    (la : List Int) (d : Int) (hd : lb.getD i 0 = d) (h1 : 1 ≤ d) (h2 : cb = quot * d)
    (h3 : cb = lb.prod) (h4 : after = la.prod) (h5 : after = quot * (d + 1)) (h6 : 0 ≤ quot)
    (h7 : cb < spur) (h8 : ∀ c ∈ la, 0 ≤ c ∧ c ≤ after) :
    DimsStep.ok spur ⟨i, cb, lb, quot, after, la⟩ ∧
      (spur ≤ 536870911 → DimsStep.fits_int32 ⟨i, cb, lb, quot, after, la⟩) := by
  have hq : quot ≤ cb := by
    have := mul_le_mul_of_nonneg_left h1 h6
    rw [h2]; linarith
  have hcb0 : 0 ≤ cb := le_trans h6 hq
  have haf : after = cb + quot := by rw [h5, h2]; ring
  have hb1 : cb ≤ max 1 (2 * (spur - 1)) := le_max_bound spur cb (by omega)
  have hb2 : after ≤ max 1 (2 * (spur - 1)) := le_max_bound spur after (by omega)
  refine ⟨⟨?_, ?_, h3, h4, h6, hq, hb1, hb2⟩, ?_⟩
  · show 1 ≤ lb.getD i 0
    rw [hd]; exact h1
  · show cb = quot * lb.getD i 0
    rw [hd]; exact h2
  · intro hs
    have hm := max_bound_lt spur hs
    refine ⟨⟨hcb0, lt_of_le_of_lt hb1 hm⟩, ⟨h6, lt_of_le_of_lt (le_trans hq hb1) hm⟩,
      ⟨by show 0 ≤ after; omega, lt_of_le_of_lt hb2 hm⟩, ?_⟩
    intro c hc
    exact ⟨(h8 c hc).1, lt_of_le_of_lt (le_trans (h8 c hc).2 hb2) hm⟩

theorem cube_steps_ok (spur a : Int) (ha : 1 ≤ a) :
    (a * a * a < spur →
      DimsStep.ok spur ⟨0, a * a * a, [a, a, a], a * a, (a + 1) * a * a, [a + 1, a, a]⟩ ∧
      (spur ≤ 536870911 → DimsStep.fits_int32
        ⟨0, a * a * a, [a, a, a], a * a, (a + 1) * a * a, [a + 1, a, a]⟩)) ∧
    ((a + 1) * a * a < spur →
      DimsStep.ok spur
        ⟨1, (a + 1) * a * a, [a + 1, a, a], (a + 1) * a, (a + 1) * (a + 1) * a,
          [a + 1, a + 1, a]⟩ ∧
      (spur ≤ 536870911 → DimsStep.fits_int32
        ⟨1, (a + 1) * a * a, [a + 1, a, a], (a + 1) * a, (a + 1) * (a + 1) * a,
          [a + 1, a + 1, a]⟩)) ∧
    ((a + 1) * (a + 1) * a < spur →
      DimsStep.ok spur
        ⟨2, (a + 1) * (a + 1) * a, [a + 1, a + 1, a], (a + 1) * (a + 1),
          (a + 1) * (a + 1) * (a + 1), [a + 1, a + 1, a + 1]⟩ ∧
      (spur ≤ 536870911 → DimsStep.fits_int32
        ⟨2, (a + 1) * (a + 1) * a, [a + 1, a + 1, a], (a + 1) * (a + 1),
          (a + 1) * (a + 1) * (a + 1), [a + 1, a + 1, a + 1]⟩)) := by
  have haa : 1 ≤ a * a := by nlinarith
  have hab : 1 ≤ (a + 1) * a := by nlinarith
  have hbb : 1 ≤ (a + 1) * (a + 1) := by nlinarith
  refine ⟨fun h => ?_, fun h => ?_, fun h => ?_⟩
  · refine dimsStep_ok_intro spur 0 _ _ _ _ _ a ?_ ha ?_ ?_ ?_ ?_ (by omega) h ?_
    · rfl
    · rfl
    · simp; ring
    · simp; ring
    · ring
    intro c hc
    simp only [List.mem_cons, List.mem_singleton, List.not_mem_nil, or_false] at hc
    rcases hc with rfl | rfl | rfl
    · constructor <;> nlinarith
    · constructor <;> nlinarith
    · constructor <;> nlinarith
  · refine dimsStep_ok_intro spur 1 _ _ _ _ _ a ?_ ha ?_ ?_ ?_ ?_ (by omega) h ?_
    · rfl
    · rfl
    · simp; ring
    · simp; ring
    · ring
    intro c hc
    simp only [List.mem_cons, List.mem_singleton, List.not_mem_nil, or_false] at hc
    rcases hc with rfl | rfl | rfl
    · constructor <;> nlinarith
    · constructor <;> nlinarith
    · constructor <;> nlinarith
  · refine dimsStep_ok_intro spur 2 _ _ _ _ _ a ?_ ha ?_ ?_ ?_ ?_ (by omega) h ?_
    · rfl
    · rfl
    · simp; ring
    · simp; ring
    · ring
    intro c hc
    simp only [List.mem_cons, List.mem_singleton, List.not_mem_nil, or_false] at hc
    rcases hc with rfl | rfl | rfl
    · constructor <;> nlinarith
    · constructor <;> nlinarith
    · constructor <;> nlinarith

/-- The traced `while (1)` loop from the cube `(a, a, a)` returns when the
fuel exceeds `spur - a`; `count` is the product of the extents and within the
bound, and so is every execution of the loop body. -/
theorem get_dims_while_trace_cube (spur : Int) :
    ∀ (fuel : Nat) (a : Int), 1 ≤ a → 1 ≤ fuel → spur < a + fuel →
      a * a * a ≤ max 1 (2 * (spur - 1)) →
      ∃ count coord tr, _get_dims_while_trace spur 3 fuel (a * a * a) [a, a, a]
          = some (count, coord, tr) ∧
        count = coord.prod ∧ 0 ≤ count ∧ count ≤ max 1 (2 * (spur - 1)) ∧
        ∀ st ∈ tr, DimsStep.ok spur st ∧ (spur ≤ 536870911 → DimsStep.fits_int32 st) := by
  intro fuel
  induction fuel with
  | zero => intro a _ h; omega
  | succ n ih =>
    intro a ha _ hlt hbound
    obtain ⟨k0, k1, k2⟩ := cube_steps_ok spur a ha
    have haa : 1 ≤ a * a := by nlinarith
    have hab : 1 ≤ (a + 1) * a := by nlinarith
    rw [_get_dims_while_trace, get_dims_for_trace_cube spur a ha]
    by_cases h1 : spur ≤ a * a * a
    · refine ⟨a * a * a, [a, a, a], [], by rw [if_pos h1], by simp; ring, by nlinarith,
        hbound, ?_⟩
      intro st hst
      exact absurd hst (List.not_mem_nil st)
    · have c0 : a * a * a < spur := by omega
      by_cases h2 : spur ≤ (a + 1) * a * a
      · refine ⟨(a + 1) * a * a, [a + 1, a, a], _, by rw [if_neg h1, if_pos h2],
          by simp; ring, by nlinarith, (k0 c0).1.2.2.2.2.2.2.2, ?_⟩
        intro st hst
        rcases List.mem_singleton.mp hst with rfl
        exact k0 c0
      · have c1 : (a + 1) * a * a < spur := by omega
        by_cases h3 : spur ≤ (a + 1) * (a + 1) * a
        · refine ⟨(a + 1) * (a + 1) * a, [a + 1, a + 1, a], _,
            by rw [if_neg h1, if_neg h2, if_pos h3],
            by simp; ring, by nlinarith, (k1 c1).1.2.2.2.2.2.2.2, ?_⟩
          intro st hst
          simp only [List.mem_cons, List.mem_singleton, List.not_mem_nil, or_false] at hst
          rcases hst with rfl | rfl
          · exact k0 c0
          · exact k1 c1
        · have c2 : (a + 1) * (a + 1) * a < spur := by omega
          have hcube := le_cube a ha
          have hn : 1 ≤ n := by
            by_contra hc
            have : n = 0 := by omega
            subst this
            simp at hlt
            omega
          obtain ⟨count, coord, tr, hrun, hprod, h0, hb, htr⟩ :=
            ih (a + 1) (by omega) hn (by push_cast at hlt ⊢; omega) (k2 c2).1.2.2.2.2.2.2.2
          refine ⟨count, coord, _, by
            rw [if_neg h1, if_neg h2, if_neg h3]
            dsimp only
            rw [hrun]
            rfl, hprod, h0, hb, ?_⟩
          intro st hst
          rcases List.mem_append.mp hst with hst | hst
          · simp only [List.mem_cons, List.mem_singleton, List.not_mem_nil, or_false] at hst
            rcases hst with rfl | rfl | rfl
            · exact k0 c0
            · exact k1 c1
            · exact k2 c2
          · exact htr st hst

/-- C20: for every integer `spur_cnt` the `while (1)` loop of
`_get_dims(spur_cnt, coord, 3)` returns (for every fuel from
`_get_dims_fuel spur_cnt` on), with the same extents as `_get_dims`; in every
execution of the loop body `count` is the exact product of the extents before
and after, the division `count /= coord[i]` is exact and by a value `>= 1`, and
no value of `count` exceeds `max(1, 2*(spur_cnt - 1))`; and for
`spur_cnt <= 536870911` every value of `count` and every extent is
non-negative and below `2^31`. -/
theorem get_dims_terminates_within_int32 (spur_cnt a b c : Int) :
    ∃ (count : Int) (coord : List Int) (trace : List DimsStep),
      (∀ extra : Nat, _get_dims_while_trace spur_cnt 3 (_get_dims_fuel spur_cnt + extra) 1
          (_get_dims_ones 3 0 [a, b, c]) = some (count, coord, trace)) ∧
      (∀ extra : Nat, _get_dims (_get_dims_fuel spur_cnt + extra) spur_cnt [a, b, c] 3
          = some coord) ∧
      count = coord.prod ∧ 0 ≤ count ∧ count ≤ max 1 (2 * (spur_cnt - 1)) ∧
      (∀ st ∈ trace, DimsStep.ok spur_cnt st) ∧
      (spur_cnt ≤ 536870911 → count < 2 ^ 31 ∧ ∀ st ∈ trace, DimsStep.fits_int32 st) := by
  obtain ⟨count, coord, tr, hrun, hprod, h0, hb, htr⟩ :=
    get_dims_while_trace_cube spur_cnt (_get_dims_fuel spur_cnt) 1 (le_refl 1)
      (by unfold _get_dims_fuel; omega) (by unfold _get_dims_fuel; push_cast; omega)
      (by simp)
  simp only [mul_one] at hrun
  have hall : ∀ extra : Nat, _get_dims_while_trace spur_cnt 3 (_get_dims_fuel spur_cnt + extra) 1
      (_get_dims_ones 3 0 [a, b, c]) = some (count, coord, tr) := by
    intro extra
    rw [get_dims_ones_three]
    exact get_dims_while_trace_mono spur_cnt 3 extra _ _ _ _ hrun
  refine ⟨count, coord, tr, hall, ?_, hprod, h0, hb, fun st hst => (htr st hst).1, ?_⟩
  · intro extra
    rw [_get_dims, ← get_dims_while_trace_erase, hall extra]
    rfl
  · intro hs
    exact ⟨lt_of_le_of_lt hb (max_bound_lt spur_cnt hs), fun st hst => (htr st hst).2 hs⟩

end AlpsEmulate
